import Mathlib

/-!
Verification of the Gleam compiler fragment: lowering of `case` expressions
with clause guards to JavaScript, and the dependency-manifest TOML
serialization (`compiler-core/src/manifest.rs`).

The case-lowering pipeline itself (pattern matcher, guard compiler, binding
environment, orchestrator) is exercised by `src/javascript/tests/case_clause_guards.rs`;
its implementation is modelled here from the specification and checked against
the expected JavaScript output recorded in those tests.
-/

/-- Decimal digit character: `0 ↦ '0'`, …, `9 ↦ '9'`. -/
def digitChar (n : Nat) : Char := Char.ofNat (48 + n)

/-- Fuel-driven decimal rendering; the fuel only bounds the recursion depth
and `natChars` below always supplies enough of it. -/
def natCharsFuel : Nat → Nat → List Char
  | 0, n => [digitChar n]
  | f + 1, n =>
      if n < 10 then [digitChar n]
      else natCharsFuel f (n / 10) ++ [digitChar (n % 10)]

/-- Decimal rendering of a natural number as a list of digit characters,
most significant digit first (the usual `format!`-style decimal printing). -/
def natChars (n : Nat) : List Char := natCharsFuel n n

/-- Numeric value of a digit character. -/
def digitVal (c : Char) : Nat := c.toNat - 48

/-- Value of a digit string read left to right. -/
def digitsVal (l : List Char) : Nat := l.foldl (fun a c => 10 * a + digitVal c) 0

/-- Modelled from the spec: the Binding Environment's deterministic renaming
(missing from `src/`, only its tests are present): the emitted identifier is
the name itself for generation 0 and the name suffixed with `$` and the
generation's decimal tag for generation ≥ 1. -/
def rename (name : String) (gen : Nat) : String :=
  if gen = 0 then name else name ++ "$" ++ ⟨natChars gen⟩

/-- Modelled from the spec: the Binding Environment is a mapping from variable
name to current generation counter, threaded through compilation. -/
abbrev Env := List (String × Nat)

/-- Current generation of a name (0 when the name has not been rebound). -/
def Env.resolve (env : Env) (name : String) : Nat :=
  (env.lookup name).getD 0

/-- Modelled from the spec: (re)binding a name increments its generation
counter; a fresh name starts at generation 0. Returns the generation assigned
to the new binding together with the updated environment. -/
def Env.bind (env : Env) (name : String) : Nat × Env :=
  match env.lookup name with
  | some g => (g + 1, (name, g + 1) :: env)
  | none => (0, (name, 0) :: env)

/-- Modelled from the spec: the binary operators appearing in compiled guard
tests, as they exist in the JavaScript target. -/
inductive JsOp
  | eq
  | neq
  | bAnd
  | bOr
deriving DecidableEq

/-- Precedence of each target operator (strict equality binds tighter than
the boolean connectives, conjunction tighter than disjunction). -/
def JsOp.prec : JsOp → Nat
  | .eq => 9
  | .neq => 9
  | .bAnd => 5
  | .bOr => 4

/-- Concrete JavaScript spelling of each target operator: `Equal` is emitted
as strict equality and `NotEqual` as strict inequality. -/
def JsOp.symbol : JsOp → String
  | .eq => "==="
  | .neq => "!=="
  | .bAnd => "&&"
  | .bOr => "||"

/-- Modelled from the spec: target-language expressions produced by the
Pattern Matcher and Guard Compiler (variables, literals, indexed element
access forming extraction paths, and binary operations). -/
inductive TargetExpr
  | var (name : String)
  | intLit (i : Int)
  | boolLit (b : Bool)
  | strLit (s : String)
  | index (e : TargetExpr) (i : Nat)
  | binop (op : JsOp) (l r : TargetExpr)
deriving DecidableEq

/-- Rendering of integer literals (sign followed by decimal digits). -/
def intChars (i : Int) : String :=
  if i < 0 then "-" ++ ⟨natChars i.natAbs⟩ else ⟨natChars i.natAbs⟩

/-- Precedence of an expression's top-level operator, when it has one. -/
def TargetExpr.headPrec : TargetExpr → Option Nat
  | .binop op _ _ => some op.prec
  | _ => none

/-- Whether a child operand must be wrapped in parentheses under a parent of
precedence `parent`: exactly when the child's own top-level operator has
precedence less than or equal to the parent's. -/
def needParens (parent : Nat) (child : TargetExpr) : Bool :=
  match child.headPrec with
  | some q => decide (q ≤ parent)
  | none => false

/-- Printing of target expressions, parenthesizing each binary-operator child
whose precedence is less than or equal to its parent operator's precedence. -/
def renderExpr : TargetExpr → String
  | .var n => n
  | .intLit i => intChars i
  | .boolLit b => if b then "true" else "false"
  | .strLit s => "\"" ++ s ++ "\""
  | .index e i => renderExpr e ++ "[" ++ ⟨natChars i⟩ ++ "]"
  | .binop op l r =>
      (if needParens op.prec l then "(" ++ renderExpr l ++ ")" else renderExpr l)
        ++ " " ++ op.symbol ++ " "
        ++ (if needParens op.prec r then "(" ++ renderExpr r ++ ")" else renderExpr r)

/-- Modelled from the spec: source patterns — wildcard, literals, pattern
variables, and tuples of sub-patterns. -/
inductive Pattern
  | wildcard
  | litInt (i : Int)
  | litBool (b : Bool)
  | litStr (s : String)
  | pvar (name : String)
  | tuple (elems : List Pattern)

/-- An extraction record: a pattern variable together with the target
expression reading the value it refers to. -/
structure Binding where
  name : String
  path : TargetExpr
deriving DecidableEq

mutual

/-- Modelled from the spec: the Pattern Matcher's boolean tests. A wildcard or
variable contributes no test; a literal contributes a strict-equality
comparison against the extraction path; a tuple recursively tests each element
at its index, concatenating the child tests left to right. -/
def patternTests : Pattern → TargetExpr → List TargetExpr
  | .wildcard, _ => []
  | .litInt i, path => [.binop .eq path (.intLit i)]
  | .litBool b, path => [.binop .eq path (.boolLit b)]
  | .litStr s, path => [.binop .eq path (.strLit s)]
  | .pvar _, _ => []
  | .tuple es, path => tupleTests es path 0

/-- Tests of the elements of a tuple pattern, element `k` matched against the
base path indexed at `k`. -/
def tupleTests : List Pattern → TargetExpr → Nat → List TargetExpr
  | [], _, _ => []
  | p :: ps, path, k => patternTests p (.index path k) ++ tupleTests ps path (k + 1)

end

mutual

/-- Modelled from the spec: the Pattern Matcher's bindings. A variable pattern
binds its name to the current extraction path; a tuple collects child bindings
in left-to-right, depth-first order; other patterns bind nothing. -/
def patternBindings : Pattern → TargetExpr → List Binding
  | .wildcard, _ => []
  | .litInt _, _ => []
  | .litBool _, _ => []
  | .litStr _, _ => []
  | .pvar n, path => [⟨n, path⟩]
  | .tuple es, path => tupleBindings es path 0

/-- Bindings of the elements of a tuple pattern. -/
def tupleBindings : List Pattern → TargetExpr → Nat → List Binding
  | [], _, _ => []
  | p :: ps, path, k => patternBindings p (.index path k) ++ tupleBindings ps path (k + 1)

end

/-- Modelled from the spec: source-level binary operators usable in guards. -/
inductive GOp
  | eq
  | neq
  | gAnd
  | gOr
deriving DecidableEq

/-- Modelled from the spec: mapping of guard operators onto target operators
(`Equal → strict-equality`, `NotEqual → strict-inequality`, `And`/`Or` → the
corresponding boolean connective). -/
def GOp.toJs : GOp → JsOp
  | .eq => .eq
  | .neq => .neq
  | .gAnd => .bAnd
  | .gOr => .bOr

/-- Modelled from the spec: guard expressions — variable references,
constants, tuple access, and binary operations. -/
inductive GuardExpr
  | varRef (name : String)
  | constInt (i : Int)
  | constBool (b : Bool)
  | tupleAccess (e : GuardExpr) (i : Nat)
  | binaryOp (op : GOp) (l r : GuardExpr)
deriving DecidableEq

/-- First binding for a name among a clause's pattern bindings. -/
def lookupBinding (bs : List Binding) (name : String) : Option TargetExpr :=
  (bs.find? (fun b => b.name == name)).map Binding.path

/-- Modelled from the spec: the Guard Compiler. A variable reference is
resolved through the clause's pattern bindings to its raw extraction path
(never a materialized local); names bound by no pattern resolve through the
Binding Environment to their renamed identifier. Constants are emitted
literally, tuple access appends an index access, and a binary operation maps
its operator to the target operator and recurses into both operands. -/
def compileGuard (bs : List Binding) (env : Env) : GuardExpr → TargetExpr
  | .varRef n =>
      match lookupBinding bs n with
      | some path => path
      | none => .var (rename n (env.resolve n))
  | .constInt i => .intLit i
  | .constBool b => .boolLit b
  | .tupleAccess e i => .index (compileGuard bs env e) i
  | .binaryOp op l r => .binop op.toJs (compileGuard bs env l) (compileGuard bs env r)

/-- Names referenced by a guard expression. -/
def guardRefs : GuardExpr → List String
  | .varRef n => [n]
  | .constInt _ => []
  | .constBool _ => []
  | .tupleAccess e _ => guardRefs e
  | .binaryOp _ l r => guardRefs l ++ guardRefs r

/-- Modelled from the spec: a clause pairs a pattern, an optional guard and a
result body (the body itself restricted to the guard-expression forms, which
cover all bodies exercised by the tests). -/
structure Clause where
  pattern : Pattern
  guard : Option GuardExpr
  body : GuardExpr

/-- Names referenced by a clause's guard or body. -/
def clauseRefs (c : Clause) : List String :=
  (match c.guard with
   | some g => guardRefs g
   | none => []) ++ guardRefs c.body

/-- Conjunction of a non-empty test list, left associated; `none` when every
test is trivially true (a trivially-true test is omitted, never emitted as a
`true &&` conjunct). -/
def conjoin : List TargetExpr → Option TargetExpr
  | [] => none
  | t :: ts => some (ts.foldl (fun a b => .binop .bAnd a b) t)

/-- Modelled from the spec: materialization of the referenced bindings inside
the matched branch, each as a new generation via the Binding Environment, in
matcher-produced order. -/
def materialize (env : Env) : List Binding → List (String × TargetExpr) × Env
  | [] => ([], env)
  | b :: bs =>
      let (g, env') := env.bind b.name
      let (rest, env'') := materialize env' bs
      ((rename b.name g, b.path) :: rest, env'')

/-- Modelled from the spec: lowering of one clause. The pattern's tests and
the compiled guard (compiled against the unmaterialized bindings) are
conjoined into the branch condition; only the bindings referenced by guard or
body are materialized, and the body is compiled in the extended environment. -/
def lowerClause (subject : TargetExpr) (env : Env) (c : Clause) :
    Option TargetExpr × List (String × TargetExpr) × TargetExpr :=
  let tests := patternTests c.pattern subject
  let bs := patternBindings c.pattern subject
  let guardTest :=
    match c.guard with
    | some g => [compileGuard bs env g]
    | none => []
  let used := clauseRefs c
  let mats := bs.filter (fun b => used.contains b.name)
  let (decls, env') := materialize env mats
  (conjoin (tests ++ guardTest), decls, compileGuard [] env' c.body)

/-- The terminal alternative of a lowered chain: either the runtime "Bad
match" failure, or the body of a statically exhaustive final clause. -/
inductive LoweredTail
  | badMatch
  | otherwise (decls : List (String × TargetExpr)) (body : TargetExpr)
deriving DecidableEq

/-- One emitted conditional branch: the combined test, the materialized
bindings, and the compiled clause body. -/
structure LoweredBranch where
  cond : TargetExpr
  decls : List (String × TargetExpr)
  body : TargetExpr
deriving DecidableEq

/-- A lowered case expression: an ordered if/else-if chain plus its terminal
alternative. -/
structure LoweredCase where
  branches : List LoweredBranch
  tail : LoweredTail
deriving DecidableEq

/-- Modelled from the spec: the Case Lowering Orchestrator, a linear scan over
the clauses in source order. A clause whose combined condition is trivially
true is statically exhaustive: it becomes the terminal `else` and lowering
stops; if every clause carries a condition, the terminal `else` raises the
"Bad match" runtime failure. -/
def lowerClauses (subject : TargetExpr) (env : Env) : List Clause → LoweredCase
  | [] => ⟨[], .badMatch⟩
  | c :: cs =>
      match lowerClause subject env c with
      | (none, decls, body) => ⟨[], .otherwise decls body⟩
      | (some t, decls, body) =>
          let rest := lowerClauses subject env cs
          ⟨⟨t, decls, body⟩ :: rest.branches, rest.tail⟩

/-- Printing of one materialized binding statement. -/
def renderDecl (d : String × TargetExpr) : String :=
  "let " ++ d.1 ++ " = " ++ renderExpr d.2 ++ "; "

/-- Printing of a branch body: the materialized bindings followed by the
returned body expression. -/
def renderBlock (decls : List (String × TargetExpr)) (body : TargetExpr) : String :=
  String.join (decls.map renderDecl) ++ "return " ++ renderExpr body

/-- Printing of the terminal alternative. -/
def renderTail : LoweredTail → String
  | .badMatch => "\x7b throw \"Bad match\" \x7d"
  | .otherwise ds b => "\x7b " ++ renderBlock ds b ++ " \x7d"

/-- Printing of the if/else-if chain followed by the terminal alternative. -/
def renderChain : List LoweredBranch → LoweredTail → String
  | [], t => renderTail t
  | b :: bs, t =>
      "if (" ++ renderExpr b.cond ++ ") \x7b " ++ renderBlock b.decls b.body
        ++ " \x7d else " ++ renderChain bs t

/-- Printing of a whole lowered case expression. -/
def renderCase (L : LoweredCase) : String :=
  renderChain L.branches L.tail

/-- Modelled from the spec: lowering of a chain of `let` bindings preceding a
case expression; each value is compiled in the environment before its own
binding, each binding advances its name's generation, and the emitted local
uses the renamed identifier. -/
def lowerLets (env : Env) : List (String × GuardExpr) → List (String × TargetExpr) × Env
  | [] => ([], env)
  | (n, e) :: rest =>
      let v := compileGuard [] env e
      let (g, env') := env.bind n
      let (ds, env'') := lowerLets env' rest
      ((rename n g, v) :: ds, env'')

/-- Package version as used by the manifest (hexpm `Version::new(major,
minor, patch)`); `to_string` renders the three dot-separated components. -/
structure Version where
  major : Nat
  minor : Nat
  patch : Nat
deriving DecidableEq

/-- Characters of `Version::to_string`. -/
def versionChars (v : Version) : List Char :=
  natChars v.major ++ '.' :: natChars v.minor ++ '.' :: natChars v.patch

/-- `Base16Checksum(pub Vec<u8>)`: a checksum as raw bytes (bytes modelled as
naturals below 256). -/
structure Base16Checksum where
  bytes : List Nat
deriving DecidableEq

/-- Uppercase hexadecimal digit for a nibble. -/
def hexCharUpper (n : Nat) : Char :=
  if n < 10 then Char.ofNat (48 + n) else Char.ofNat (55 + n)

/-- Two uppercase hexadecimal digits of one byte (`base16::encode_upper`). -/
def byteHex (b : Nat) : List Char :=
  [hexCharUpper (b / 16 % 16), hexCharUpper (b % 16)]

/-- Characters of `Base16Checksum`'s `to_string`: the bytes rendered as
uppercase base16. -/
def checksumChars (bs : List Nat) : List Char :=
  (bs.map byteHex).flatten

/-- Modelled from the spec: `crate::requirement::Requirement` is repository
code not under `src/`; its three forms and the inline TOML rendering of
`Requirement::to_toml` are reproduced from the expected strings asserted by
the `manifest_toml_format` test. -/
inductive Requirement
  | hex (range : String)
  | git (url : String)
  | path (p : String)
deriving DecidableEq

/-- Characters of `Requirement::to_toml`. -/
def Requirement.tomlChars : Requirement → List Char
  | .hex range => ("\x7b version = \"").data ++ range.data ++ ("\" \x7d").data
  | .git url => ("\x7b git = \"").data ++ url.data ++ ("\" \x7d").data
  | .path p => ("\x7b path = \"").data ++ p.data ++ ("\" \x7d").data

/-- `ManifestPackageSource`: hex (with outer checksum), git (repo and
commit), or local (path). -/
inductive ManifestPackageSource
  | hex (outerChecksum : Base16Checksum)
  | git (repo : String) (commit : String)
  | loc (path : String)
deriving DecidableEq

/-- `ManifestPackage`: one resolved package entry of the manifest. -/
structure ManifestPackage where
  name : String
  version : Version
  buildTools : List String
  otpApp : Option String
  requirements : List String
  source : ManifestPackageSource
deriving DecidableEq

/-- `Manifest`: requirements (a `HashMap<String, Requirement>`, modelled as an
association list with distinct keys) and resolved packages. -/
structure Manifest where
  requirements : List (String × Requirement)
  packages : List ManifestPackage
deriving DecidableEq

/-- Byte-wise lexicographic comparison of character lists (Rust's `str::cmp`
on the ASCII names the manifest holds). -/
def charsLe : List Char → List Char → Bool
  | [], _ => true
  | _ :: _, [] => false
  | a :: l₁, b :: l₂ =>
      if a.toNat < b.toNat then true
      else if b.toNat < a.toNat then false
      else charsLe l₁ l₂

/-- Lexicographic order on strings, used by the manifest's `sorted_by` calls. -/
def strLe (a b : String) : Bool := charsLe a.data b.data

/-- Stable insertion into a sorted list (insertion before the first
greater-or-equal key keeps equal-keyed elements in their original order,
matching Rust's stable `sort_by`). -/
def insertOn (key : α → String) (x : α) : List α → List α
  | [] => [x]
  | y :: ys => if strLe (key x) (key y) then x :: y :: ys else y :: insertOn key x ys

/-- Stable sort by a string key (the behavior of itertools `sorted_by` with
`a.key.cmp(&b.key)`). -/
def sortOn (key : α → String) : List α → List α
  | [] => []
  | x :: xs => insertOn key x (sortOn key xs)

/-- Characters of the quoted, comma-separated item list emitted for
`build_tools` and `requirements` (the `for (i, ...)` loop of `to_toml`). -/
def quotedMore : List String → List Char
  | [] => []
  | t :: ts => ',' :: ' ' :: '"' :: t.data ++ '"' :: quotedMore ts

/-- First item unseparated, subsequent items preceded by `", "`. -/
def quotedItemsChars : List String → List Char
  | [] => []
  | t :: ts => '"' :: t.data ++ '"' :: quotedMore ts

/-- Characters of the optional `otp_app` field of a package entry. -/
def otpChars : Option String → List Char
  | none => []
  | some app => (", otp_app = \"").data ++ app.data ++ ['"']

/-- Characters of the `source` fields of a package entry. -/
def sourceChars : ManifestPackageSource → List Char
  | .hex c => (", source = \"hex\", outer_checksum = \"").data
      ++ checksumChars c.bytes ++ ['"']
  | .git repo commit => (", source = \"git\", repo = \"").data ++ repo.data
      ++ ("\", commit = \"").data ++ commit.data ++ ['"']
  | .loc path => (", source = \"local\", path = \"").data ++ path.data ++ ['"']

/-- Characters of one package line of `Manifest::to_toml`, without the
terminating newline. -/
def pkgLineBody (p : ManifestPackage) : List Char :=
  ("  \x7b name = \"").data ++ p.name.data
    ++ ("\", version = \"").data ++ versionChars p.version
    ++ ("\", build_tools = [").data ++ quotedItemsChars p.buildTools
    ++ ("], requirements = [").data ++ quotedItemsChars p.requirements
    ++ [']'] ++ otpChars p.otpApp ++ sourceChars p.source ++ (" \x7d,").data

/-- Characters of one `[requirements]` line, without the terminating
newline. -/
def reqLineBody (r : String × Requirement) : List Char :=
  r.1.data ++ (" = ").data ++ r.2.tomlChars

/-- The fixed lines of `Manifest::to_toml` surrounding the entries. -/
def headerLine1 : List Char := ("# This file was generated by Gleam").data

/-- Second header comment line. -/
def headerLine2 : List Char := ("# You typically do not need to edit this file").data

/-- Opening line of the packages array. -/
def packagesOpen : List Char := ("packages = [").data

/-- Section label of the requirements table. -/
def requirementsLabel : List Char := ("[requirements]").data

/-- The lines of `Manifest::to_toml`, in emission order (each will be
terminated by a newline). -/
def manifestLines (m : Manifest) : List (List Char) :=
  [headerLine1, headerLine2, [], packagesOpen]
    ++ (sortOn ManifestPackage.name m.packages).map pkgLineBody
    ++ [[']'], [], requirementsLabel]
    ++ (sortOn Prod.fst m.requirements).map reqLineBody

/-- `Manifest::to_toml`: the manual TOML serialization — header comment,
packages sorted by name one per line, then the requirements table sorted by
name. -/
def Manifest.toToml (m : Manifest) : String :=
  ⟨((manifestLines m).map (fun l => l ++ ['\n'])).flatten⟩

/-- Modelled from the spec: consuming an expected literal prefix, the
elementary step of the TOML deserialization (`toml::from_str` plus the serde
derives are external to `src/`; the parser here reads back exactly the
documents `Manifest::to_toml` emits). -/
def dropLit : List Char → List Char → Option (List Char)
  | [], rest => some rest
  | _ :: _, [] => none
  | c :: cs, d :: rest => if c = d then dropLit cs rest else none

/-- Whether a character may appear verbatim inside a TOML basic string:
anything except the quotation mark, the backslash, and the control characters
other than tab (U+0000–U+0008, U+000A–U+001F, U+007F). -/
def tomlStringChar (c : Char) : Prop :=
  c ≠ '"' ∧ c ≠ '\\' ∧ (c.toNat = 9 ∨ (32 ≤ c.toNat ∧ c.toNat ≠ 127))

instance : DecidablePred tomlStringChar := fun c =>
  inferInstanceAs (Decidable (c ≠ '"' ∧ c ≠ '\\' ∧ (c.toNat = 9 ∨ (32 ≤ c.toNat ∧ c.toNat ≠ 127))))

/-- Value of one hexadecimal digit character, either case
(`base16::decode`). -/
def hexVal (c : Char) : Option Nat :=
  if 48 ≤ c.toNat ∧ c.toNat ≤ 57 then some (c.toNat - 48)
  else if 65 ≤ c.toNat ∧ c.toNat ≤ 70 then some (c.toNat - 55)
  else if 97 ≤ c.toNat ∧ c.toNat ≤ 102 then some (c.toNat - 87)
  else none

/-- Combine hexadecimal digit characters into a value; `none` if any digit is
invalid. -/
def hexDigitsVal : List Char → Option Nat
  | [] => some 0
  | c :: cs =>
      match hexVal c, hexDigitsVal cs with
      | some d, some v => some (d * 16 ^ cs.length + v)
      | _, _ => none

/-- Modelled from the spec: decode one TOML basic-string backslash escape
(`\b`, `\t`, `\n`, `\f`, `\r`, `\"`, `\\`, `\uXXXX`, `\UXXXXXXXX`, the last
two requiring a Unicode scalar value); any other escape is an error. Returns
the decoded character and the remaining input. -/
def escDecode : List Char → Option (Char × List Char)
  | [] => none
  | e :: rest =>
      if e = 'b' then some (Char.ofNat 8, rest)
      else if e = 't' then some ('\t', rest)
      else if e = 'n' then some ('\n', rest)
      else if e = 'f' then some (Char.ofNat 12, rest)
      else if e = 'r' then some ('\r', rest)
      else if e = '"' then some ('"', rest)
      else if e = '\\' then some ('\\', rest)
      else if e = 'u' then
        match rest with
        | h₁ :: h₂ :: h₃ :: h₄ :: rest₂ =>
            (match hexDigitsVal [h₁, h₂, h₃, h₄] with
             | some n => if n.isValidChar then some (Char.ofNat n, rest₂) else none
             | none => none)
        | _ => none
      else if e = 'U' then
        match rest with
        | h₁ :: h₂ :: h₃ :: h₄ :: h₅ :: h₆ :: h₇ :: h₈ :: rest₂ =>
            (match hexDigitsVal [h₁, h₂, h₃, h₄, h₅, h₆, h₇, h₈] with
             | some n => if n.isValidChar then some (Char.ofNat n, rest₂) else none
             | none => none)
        | _ => none
      else none

/-- Modelled from the spec: the TOML basic-string reader of the external
`toml::from_str` deserializer, applied to the quoted strings `to_toml` emits:
content runs to the first unescaped quotation mark; a backslash introduces
one of TOML's escapes (decoded by `escDecode`); literal control characters
other than tab are rejected. Returns the decoded content and the characters
after the closing quote. The fuel only bounds the recursion depth; every
step consumes at least one input character, so the input length (supplied by
`parseBasicString` below) always suffices. -/
def parseBasicStringFuel : Nat → List Char → Option (List Char × List Char)
  | _, [] => none
  | 0, _ :: _ => none
  | f + 1, c :: rest =>
      if c = '"' then some ([], rest)
      else if c = '\\' then
        match escDecode rest with
        | some (d, rest₂) => (parseBasicStringFuel f rest₂).map (fun p => (d :: p.1, p.2))
        | none => none
      else if c.toNat = 9 ∨ (32 ≤ c.toNat ∧ c.toNat ≠ 127) then
        (parseBasicStringFuel f rest).map (fun p => (c :: p.1, p.2))
      else none

/-- The basic-string reader with the recursion depth bounded by the input
length, which every step's one-character-or-more consumption keeps
sufficient. -/
def parseBasicString (l : List Char) : Option (List Char × List Char) :=
  parseBasicStringFuel l.length l

/-- Split on a separator character; always returns one chunk more than the
number of separators. -/
def splitOnChar (sep : Char) : List Char → List (List Char)
  | [] => [[]]
  | c :: cs =>
      if c = sep then [] :: splitOnChar sep cs
      else match splitOnChar sep cs with
           | l :: ls => (c :: l) :: ls
           | [] => [[c]]

/-- A non-empty all-digit chunk read as a natural number. -/
def parseNatChars (l : List Char) : Option Nat :=
  if l ≠ [] ∧ l.all Char.isDigit then some (digitsVal l) else none

/-- Three dot-separated numeric components read as a version. -/
def parseVersion (l : List Char) : Option Version :=
  match splitOnChar '.' l with
  | [a, b, c] =>
      match parseNatChars a, parseNatChars b, parseNatChars c with
      | some x, some y, some z => some ⟨x, y, z⟩
      | _, _, _ => none
  | _ => none

/-- Hexadecimal digit pairs read back as bytes (`base16::decode`). -/
def parseHexBytes : List Char → Option (List Nat)
  | [] => some []
  | [_] => none
  | c₁ :: c₂ :: rest =>
      match hexVal c₁, hexVal c₂, parseHexBytes rest with
      | some h, some l, some bs => some ((16 * h + l) :: bs)
      | _, _, _ => none

/-- Modelled from the spec: the reader of a TOML array of strings, as the
external deserializer sees the `["a", "b"]` lists `to_toml` emits: a closing
bracket ends the array, otherwise a quoted string is read (quote-aware, so a
`]` inside a string is ordinary content) followed by a `", "` separator or
the closing bracket. The fuel only bounds the recursion depth; callers pass
the input length, which always suffices. -/
def parseItemsFuel : Nat → List Char → Option (List String × List Char)
  | _, ']' :: rest => some ([], rest)
  | f + 1, '"' :: rest =>
      (match parseBasicString rest with
       | some (item, ']' :: rest₂) => some ([(⟨item⟩ : String)], rest₂)
       | some (item, ',' :: ' ' :: rest₂) =>
           (match parseItemsFuel f rest₂ with
            | some (items, rest₃) => some ((⟨item⟩ : String) :: items, rest₃)
            | none => none)
       | _ => none)
  | _, _ => none

/-- Whether a character may appear in a TOML bare key: ASCII letters, digits,
underscore and dash. -/
def isBareKeyChar (c : Char) : Bool :=
  decide ((65 ≤ c.toNat ∧ c.toNat ≤ 90) ∨ (97 ≤ c.toNat ∧ c.toNat ≤ 122)
    ∨ (48 ≤ c.toNat ∧ c.toNat ≤ 57) ∨ c = '_' ∨ c = '-')

/-- One `tag = "value"` inline-table body read back as its value. -/
def parseTagged (tag : List Char) (l : List Char) : Option String :=
  match dropLit ('\x7b' :: ' ' :: (tag ++ (" = \"").data)) l with
  | some rest =>
      match parseBasicString rest with
      | some (v, rest') => if rest' = [' ', '\x7d'] then some ⟨v⟩ else none
      | none => none
  | none => none

/-- One requirement value (`{ version = … }`, `{ git = … }` or
`{ path = … }`) read back. -/
def parseReqValue (l : List Char) : Option Requirement :=
  match parseTagged ("version").data l with
  | some v => some (.hex v)
  | none =>
      match parseTagged ("git").data l with
      | some v => some (.git v)
      | none =>
          match parseTagged ("path").data l with
          | some v => some (.path v)
          | none => none

/-- One `name = { … }` requirements line read back: the key is read with
TOML bare-key syntax (letters, digits, underscore, dash) and must be
non-empty. -/
def parseReqLine (line : List Char) : Option (String × Requirement) :=
  let name := line.takeWhile isBareKeyChar
  if name = [] then none
  else
    match dropLit (" = ").data (line.dropWhile isBareKeyChar) with
    | some rest₂ => (parseReqValue rest₂).map (fun r => ((⟨name⟩ : String), r))
    | none => none

/-- The `source`/`otp_app` suffix of a package line read back. -/
def parsePkgSourcePart (l : List Char) : Option (ManifestPackageSource × List Char) :=
  match dropLit (", source = \"hex\", outer_checksum = \"").data l with
  | some r =>
      (match parseBasicString r with
       | some (ck, r') => (parseHexBytes ck).map (fun bs => (.hex ⟨bs⟩, r'))
       | none => none)
  | none =>
  match dropLit (", source = \"git\", repo = \"").data l with
  | some r =>
      (match parseBasicString r with
       | some (repo, r₂) =>
           match dropLit (", commit = \"").data r₂ with
           | some r₃ =>
               (match parseBasicString r₃ with
                | some (commit, r₄) => some (.git ⟨repo⟩ ⟨commit⟩, r₄)
                | none => none)
           | none => none
       | none => none)
  | none =>
  match dropLit (", source = \"local\", path = \"").data l with
  | some r =>
      (match parseBasicString r with
       | some (path, r') => some (.loc ⟨path⟩, r')
       | none => none)
  | none => none

/-- One package line of the packages array read back. -/
def parsePackageLine (line : List Char) : Option ManifestPackage :=
  match dropLit ("  \x7b name = \"").data line with
  | none => none
  | some r₁ =>
  match parseBasicString r₁ with
  | none => none
  | some (name, r₂) =>
  match dropLit (", version = \"").data r₂ with
  | none => none
  | some r₃ =>
  match parseBasicString r₃ with
  | none => none
  | some (ver, r₄) =>
  match parseVersion ver with
  | none => none
  | some version =>
  match dropLit (", build_tools = [").data r₄ with
  | none => none
  | some r₅ =>
  match parseItemsFuel r₅.length r₅ with
  | none => none
  | some (tools, r₆) =>
  match dropLit (", requirements = [").data r₆ with
  | none => none
  | some r₇ =>
  match parseItemsFuel r₇.length r₇ with
  | none => none
  | some (reqs, r₈) =>
  match dropLit (", otp_app = \"").data r₈ with
  | some r₉ =>
      (match parseBasicString r₉ with
       | none => none
       | some (app, r₁₀) =>
           match parsePkgSourcePart r₁₀ with
           | some (src, rest) =>
               if rest = (" \x7d,").data then
                 some ⟨⟨name⟩, version, tools, some ⟨app⟩, reqs, src⟩
               else none
           | none => none)
  | none =>
  match parsePkgSourcePart r₈ with
  | some (src, rest) =>
      if rest = (" \x7d,").data then
        some ⟨⟨name⟩, version, tools, none, reqs, src⟩
      else none
  | none => none

/-- The package lines up to the closing `]` line read back. -/
def parsePkgLines : List (List Char) → Option (List ManifestPackage × List (List Char))
  | [] => none
  | line :: rest =>
      if line = [']'] then some ([], rest)
      else
        match parsePackageLine line, parsePkgLines rest with
        | some p, some (ps, rest') => some (p :: ps, rest')
        | _, _ => none

/-- The requirements lines up to the document's trailing empty line read
back. -/
def parseReqLines : List (List Char) → Option (List (String × Requirement))
  | [[]] => some []
  | [] => none
  | line :: rest =>
      match parseReqLine line, parseReqLines rest with
      | some r, some rs => some (r :: rs)
      | _, _ => none

/-- The whole document read back: header lines, the packages array, the blank
separator, and the requirements table. -/
def parseManifestChars (l : List Char) : Option Manifest :=
  match splitOnChar '\n' l with
  | l₁ :: l₂ :: l₃ :: l₄ :: rest =>
      if l₁ = headerLine1 ∧ l₂ = headerLine2 ∧ l₃ = [] ∧ l₄ = packagesOpen then
        match parsePkgLines rest with
        | some (pkgs, rest') =>
            match rest' with
            | lblank :: lbl :: reqLines =>
                if lblank = [] ∧ lbl = requirementsLabel then
                  match parseReqLines reqLines with
                  | some reqs => some ⟨reqs, pkgs⟩
                  | none => none
                else none
            | _ => none
        | none => none
      else none
  | _ => none

/-- Deserialization of a manifest document from a string. -/
def parseManifest (s : String) : Option Manifest :=
  parseManifestChars s.data

/-- Strings that the unescaped TOML rendering serializes faithfully: every
character may appear verbatim in a TOML basic string (no quotation mark, no
backslash, no control character other than tab). -/
def StrOk (s : String) : Prop := ∀ c ∈ s.data, tomlStringChar c

/-- Safety of a package source's payload. -/
def SourceOk : ManifestPackageSource → Prop
  | .hex c => ∀ b ∈ c.bytes, b < 256
  | .git repo commit => StrOk repo ∧ StrOk commit
  | .loc path => StrOk path

/-- Safety of the optional otp application name. -/
def OtpOk : Option String → Prop
  | none => True
  | some app => StrOk app

/-- Safety of one package entry. -/
def PkgOk (p : ManifestPackage) : Prop :=
  StrOk p.name ∧ (∀ t ∈ p.buildTools, StrOk t) ∧ (∀ t ∈ p.requirements, StrOk t)
    ∧ OtpOk p.otpApp ∧ SourceOk p.source

/-- Safety of a requirement's payload. -/
def ReqValueOk : Requirement → Prop
  | .hex range => StrOk range
  | .git url => StrOk url
  | .path p => StrOk p

/-- Safety of one requirements entry: a non-empty TOML bare-key name and a
safe payload. -/
def ReqOk (r : String × Requirement) : Prop :=
  r.1.data ≠ [] ∧ (∀ c ∈ r.1.data, isBareKeyChar c = true) ∧ ReqValueOk r.2

/-- Safety of a whole manifest: safe packages, safe requirement entries, and
pairwise-distinct requirement keys (the `HashMap` invariant of the source). -/
def ManifestOk (m : Manifest) : Prop :=
  (∀ p ∈ m.packages, PkgOk p) ∧ (∀ r ∈ m.requirements, ReqOk r)
    ∧ (m.requirements.map Prod.fst).Nodup

instance (s : String) : Decidable (StrOk s) :=
  inferInstanceAs (Decidable (∀ c ∈ s.data, tomlStringChar c))

instance : (s : ManifestPackageSource) → Decidable (SourceOk s)
  | .hex c => inferInstanceAs (Decidable (∀ b ∈ c.bytes, b < 256))
  | .git repo commit => inferInstanceAs (Decidable (StrOk repo ∧ StrOk commit))
  | .loc path => inferInstanceAs (Decidable (StrOk path))

instance : (o : Option String) → Decidable (OtpOk o)
  | none => inferInstanceAs (Decidable True)
  | some app => inferInstanceAs (Decidable (StrOk app))

instance : (r : Requirement) → Decidable (ReqValueOk r)
  | .hex range => inferInstanceAs (Decidable (StrOk range))
  | .git url => inferInstanceAs (Decidable (StrOk url))
  | .path p => inferInstanceAs (Decidable (StrOk p))

instance (p : ManifestPackage) : Decidable (PkgOk p) :=
  inferInstanceAs (Decidable (_ ∧ _ ∧ _ ∧ _ ∧ _))

instance (r : String × Requirement) : Decidable (ReqOk r) :=
  inferInstanceAs (Decidable (_ ∧ _ ∧ _))

instance (m : Manifest) : Decidable (ManifestOk m) :=
  inferInstanceAs (Decidable (_ ∧ _ ∧ _))

/-- The manifest constructed by the repository's `manifest_toml_format` test. -/
def exampleManifest : Manifest :=
  { requirements := [("zzz", .hex "> 0.0.0"), ("aaa", .hex "> 0.0.0"),
      ("awsome_local2", .git "https://github.com/gleam-lang/gleam.git"),
      ("awsome_local1", .path "../path/to/package"),
      ("gleam_stdlib", .hex "~> 0.17"), ("gleeunit", .hex "~> 0.1")],
    packages := [
      ⟨"gleam_stdlib", ⟨0, 17, 1⟩, ["gleam"], none, [], .hex ⟨[1, 22]⟩⟩,
      ⟨"aaa", ⟨0, 4, 0⟩, ["rebar3", "make"], some "aaa_app", ["zzz", "gleam_stdlib"],
        .hex ⟨[3, 22]⟩⟩,
      ⟨"zzz", ⟨0, 4, 0⟩, ["mix"], none, [], .hex ⟨[3, 22]⟩⟩,
      ⟨"awsome_local2", ⟨1, 2, 3⟩, ["gleam"], none, [],
        .git "https://github.com/gleam-lang/gleam.git"
          "bd9fe02f72250e6a136967917bcb1bdccaffa3c8"⟩,
      ⟨"awsome_local1", ⟨1, 2, 3⟩, ["gleam"], none, [],
        .loc "/home/louis/packages/path/to/package"⟩,
      ⟨"gleeunit", ⟨0, 4, 0⟩, ["gleam"], none, ["gleam_stdlib"], .hex ⟨[3, 46]⟩⟩] }

/-- A one-package, one-requirement manifest with TOML-safe contents. -/
def smallManifest : Manifest :=
  ⟨[("dep", .hex "~> 1.0")],
   [⟨"pkg", ⟨1, 2, 3⟩, ["gleam"], some "app", ["dep"], .hex ⟨[171, 205]⟩⟩]⟩

/-- Two packages sharing one name, in both orders: a permutation of the
packages vector that `to_toml`'s stable sort keeps apart. -/
def dupManifestA : Manifest :=
  ⟨[], [⟨"a", ⟨1, 0, 0⟩, [], none, [], .hex ⟨[]⟩⟩,
        ⟨"a", ⟨2, 0, 0⟩, [], none, [], .hex ⟨[]⟩⟩]⟩

/-- `dupManifestA` with its two packages swapped. -/
def dupManifestB : Manifest :=
  ⟨[], [⟨"a", ⟨2, 0, 0⟩, [], none, [], .hex ⟨[]⟩⟩,
        ⟨"a", ⟨1, 0, 0⟩, [], none, [], .hex ⟨[]⟩⟩]⟩

/-- A manifest whose single package name contains a quote, defeating the
unescaped TOML serialization. -/
def quotedManifest : Manifest :=
  ⟨[], [⟨"a\"", ⟨1, 0, 0⟩, [], none, [], .hex ⟨[]⟩⟩]⟩

theorem natCharsFuel_congr :
    ∀ f g n : Nat, n ≤ f → n ≤ g → natCharsFuel f n = natCharsFuel g n := by
  intro f
  induction f with
  | zero =>
    intro g n hf _
    have hn : n = 0 := Nat.le_zero.mp hf
    subst hn
    cases g with
    | zero => rfl
    | succ g => simp [natCharsFuel]
  | succ f ih =>
    intro g n hf hg
    cases g with
    | zero =>
      have hn : n = 0 := Nat.le_zero.mp hg
      subst hn
      simp [natCharsFuel]
    | succ g =>
      by_cases h : n < 10
      · simp [natCharsFuel, h]
      · simp only [natCharsFuel, if_neg h]
        have hd : n / 10 < n := Nat.div_lt_self (by omega) (by omega)
        rw [ih g (n / 10) (by omega) (by omega)]

theorem natChars_eq (n : Nat) :
    natChars n = if n < 10 then [digitChar n]
                 else natChars (n / 10) ++ [digitChar (n % 10)] := by
  unfold natChars
  cases n with
  | zero => simp [natCharsFuel]
  | succ m =>
    by_cases h : m + 1 < 10
    · simp [natCharsFuel, h]
    · simp only [natCharsFuel, if_neg h]
      have hd : (m + 1) / 10 < m + 1 := Nat.div_lt_self (by omega) (by omega)
      rw [natCharsFuel_congr m ((m + 1) / 10) ((m + 1) / 10) (by omega) (by omega)]

theorem digitVal_digitChar {n : Nat} (h : n < 10) : digitVal (digitChar n) = n := by
  interval_cases n <;> decide

theorem isDigit_digitChar {n : Nat} (h : n < 10) : (digitChar n).isDigit = true := by
  interval_cases n <;> decide

theorem natChars_foldl (n : Nat) :
    ∀ a, (natChars n).foldl (fun a c => 10 * a + digitVal c) a
      = a * 10 ^ (natChars n).length + n := by
  induction n using Nat.strong_induction_on with
  | _ n ih =>
    intro a
    by_cases h : n < 10
    case pos =>
      rw [natChars_eq, if_pos h]
      simp [digitVal_digitChar h]
      ring
    case neg =>
      rw [natChars_eq, if_neg h]
      rw [List.foldl_append, ih (n / 10) (Nat.div_lt_self (by omega) (by omega))]
      simp only [List.length_append, List.foldl_cons, List.foldl_nil, List.length_cons,
        List.length_nil]
      have hm : n % 10 < 10 := Nat.mod_lt _ (by omega)
      rw [digitVal_digitChar hm]
      generalize (natChars (n / 10)).length = L
      have h1 : 10 * (n / 10) + n % 10 = n := by omega
      calc 10 * (a * 10 ^ L + n / 10) + n % 10
          = a * (10 ^ L * 10) + (10 * (n / 10) + n % 10) := by ring
        _ = a * 10 ^ (L + (0 + 1)) + n := by rw [h1]; ring

/-- Decimal printing round-trips through `digitsVal`. -/
theorem digitsVal_natChars (n : Nat) : digitsVal (natChars n) = n := by
  have := natChars_foldl n 0
  simpa [digitsVal] using this

theorem natChars_injective : Function.Injective natChars := by
  intro a b h
  have := digitsVal_natChars a
  rw [h, digitsVal_natChars] at this
  omega

theorem natChars_ne_nil (n : Nat) : natChars n ≠ [] := by
  rw [natChars_eq]
  split <;> simp

theorem natChars_all_digits (n : Nat) : ∀ c ∈ natChars n, c.isDigit = true := by
  induction n using Nat.strong_induction_on with
  | _ n ih =>
    by_cases h : n < 10
    case pos =>
      rw [natChars_eq, if_pos h]
      simpa using isDigit_digitChar h
    case neg =>
      rw [natChars_eq, if_neg h]
      intro c hc
      rcases List.mem_append.mp hc with hc | hc
      · exact ih (n / 10) (Nat.div_lt_self (by omega) (by omega)) c hc
      · simp only [List.mem_singleton] at hc
        subst hc
        exact isDigit_digitChar (Nat.mod_lt _ (by omega))

theorem resolve_bind (env : Env) (name : String) :
    ((env.bind name).2).resolve name = (env.bind name).1 := by
  unfold Env.bind Env.resolve
  cases h : env.lookup name <;> simp [List.lookup, h]

theorem rename_zero (name : String) : rename name 0 = name := rfl

theorem rename_pos (name : String) {g : Nat} (h : g ≠ 0) :
    rename name g = name ++ "$" ++ ⟨natChars g⟩ := by
  simp [rename, h]

theorem rename_injective_gen (name : String) {g₁ g₂ : Nat} (h : g₁ ≠ g₂) :
    rename name g₁ ≠ rename name g₂ := by
  intro he
  rcases Nat.eq_zero_or_pos g₁ with h1 | h1
  · subst h1
    rcases Nat.eq_zero_or_pos g₂ with h2 | h2
    · exact h (h2.symm)
    · rw [rename_zero, rename_pos name (by omega)] at he
      have hlen := congrArg String.length he
      rw [String.length_append, String.length_append] at hlen
      have hne := natChars_ne_nil g₂
      have : (String.mk (natChars g₂)).length = (natChars g₂).length := rfl
      rw [this] at hlen
      have : (natChars g₂).length ≠ 0 := fun hz => hne (List.length_eq_zero.mp hz)
      have hdollar : ("$" : String).length = 1 := rfl
      omega
  · rcases Nat.eq_zero_or_pos g₂ with h2 | h2
    · subst h2
      rw [rename_zero, rename_pos name (by omega)] at he
      have hlen := congrArg String.length he
      rw [String.length_append, String.length_append] at hlen
      have hne := natChars_ne_nil g₁
      have : (String.mk (natChars g₁)).length = (natChars g₁).length := rfl
      rw [this] at hlen
      have : (natChars g₁).length ≠ 0 := fun hz => hne (List.length_eq_zero.mp hz)
      have hdollar : ("$" : String).length = 1 := rfl
      omega
    · rw [rename_pos name (by omega), rename_pos name (by omega)] at he
      have hdata := congrArg String.data he
      simp only [String.data_append] at hdata
      have : natChars g₁ = natChars g₂ := by
        have h2 := List.append_cancel_left hdata
        simpa using h2
      exact h (natChars_injective this)

theorem materialize_paths (env : Env) :
    ∀ bs : List Binding, ((materialize env bs).1).map Prod.snd = bs.map Binding.path := by
  intro bs
  induction bs generalizing env with
  | nil => rfl
  | cons b bs ih =>
    simp only [materialize, List.map_cons, List.cons.injEq]
    exact ⟨trivial, ih _⟩

theorem lowerClause_decl_paths (subject : TargetExpr) (env : Env) (c : Clause) :
    ((lowerClause subject env c).2.1).map Prod.snd
      = ((patternBindings c.pattern subject).filter
          (fun b => (clauseRefs c).contains b.name)).map Binding.path := by
  have hdef : (lowerClause subject env c).2.1
      = (materialize env ((patternBindings c.pattern subject).filter
          (fun b => (clauseRefs c).contains b.name))).1 := rfl
  rw [hdef, materialize_paths]

theorem lowerClauses_refutable (subject : TargetExpr) (env : Env) :
    ∀ cs : List Clause, (∀ c ∈ cs, (lowerClause subject env c).1 ≠ none) →
      lowerClauses subject env cs =
        ⟨cs.map (fun c =>
            ⟨((lowerClause subject env c).1).getD (.boolLit true),
             (lowerClause subject env c).2.1,
             (lowerClause subject env c).2.2⟩),
         .badMatch⟩ := by
  intro cs
  induction cs with
  | nil => intro _; rfl
  | cons c cs ih =>
    intro hall
    have hc := hall c (List.mem_cons_self c cs)
    have hrest := ih (fun c' hc' => hall c' (List.mem_cons_of_mem _ hc'))
    rw [lowerClauses]
    cases ht : (lowerClause subject env c).1 with
    | none => exact absurd ht hc
    | some t =>
      have heta : lowerClause subject env c
          = (some t, (lowerClause subject env c).2.1, (lowerClause subject env c).2.2) := by
        rw [← ht]
      rw [heta, hrest]
      simp [ht]

theorem lowerClauses_final_wildcard (subject : TargetExpr) (env : Env) (body : GuardExpr) :
    ∀ cs : List Clause, (∀ c ∈ cs, (lowerClause subject env c).1 ≠ none) →
      lowerClauses subject env (cs ++ [⟨.wildcard, none, body⟩]) =
        ⟨cs.map (fun c =>
            ⟨((lowerClause subject env c).1).getD (.boolLit true),
             (lowerClause subject env c).2.1,
             (lowerClause subject env c).2.2⟩),
         .otherwise [] (compileGuard [] env body)⟩ := by
  intro cs
  induction cs with
  | nil => intro _; rfl
  | cons c cs ih =>
    intro hall
    have hc := hall c (List.mem_cons_self c cs)
    have hrest := ih (fun c' hc' => hall c' (List.mem_cons_of_mem _ hc'))
    rw [List.cons_append, lowerClauses]
    cases ht : (lowerClause subject env c).1 with
    | none => exact absurd ht hc
    | some t =>
      have heta : lowerClause subject env c
          = (some t, (lowerClause subject env c).2.1, (lowerClause subject env c).2.2) := by
        rw [← ht]
      rw [heta, hrest]
      simp [ht]

/-- C1: when every clause of a case expression is refutable or guarded (its
lowered condition is non-trivial), the lowered output is an if/else-if chain
whose branches follow the clauses in declaration order and whose terminal
`else` raises the "Bad match" runtime failure; concretely,
`case x { 1 -> 1; _ if y -> 0 }` lowers to
`if (x === 1) { return 1 } else if (y) { return 0 } else { throw "Bad match" }`. -/
theorem claim_c1 (subject : TargetExpr) (env : Env) (cs : List Clause)
    (h : ∀ c ∈ cs, (lowerClause subject env c).1 ≠ none) :
    (lowerClauses subject env cs).tail = .badMatch ∧
    (lowerClauses subject env cs).branches
      = cs.map (fun c =>
          ⟨((lowerClause subject env c).1).getD (.boolLit true),
           (lowerClause subject env c).2.1,
           (lowerClause subject env c).2.2⟩) ∧
    renderCase (lowerClauses (.var "x") []
        [⟨.litInt 1, none, .constInt 1⟩, ⟨.wildcard, some (.varRef "y"), .constInt 0⟩])
      = "if (x === 1) \x7b return 1 \x7d else if (y) \x7b return 0 \x7d else \x7b throw \"Bad match\" \x7d" := by
  refine ⟨?_, ?_, by decide⟩
  · rw [lowerClauses_refutable subject env cs h]
  · rw [lowerClauses_refutable subject env cs h]

theorem claim_c1_witness :
    (lowerClauses (.var "x") ([] : Env)
        [⟨.litInt 1, none, .constInt 1⟩, ⟨.wildcard, some (.varRef "y"), .constInt 0⟩]).tail
      = .badMatch ∧
    (lowerClauses (.var "x") ([] : Env)
        [⟨.litInt 1, none, .constInt 1⟩, ⟨.wildcard, some (.varRef "y"), .constInt 0⟩]).branches
      = ([⟨.litInt 1, none, .constInt 1⟩,
          ⟨.wildcard, some (.varRef "y"), .constInt 0⟩] : List Clause).map (fun c =>
          ⟨((lowerClause (.var "x") [] c).1).getD (.boolLit true),
           (lowerClause (.var "x") [] c).2.1,
           (lowerClause (.var "x") [] c).2.2⟩) ∧
    renderCase (lowerClauses (.var "x") []
        [⟨.litInt 1, none, .constInt 1⟩, ⟨.wildcard, some (.varRef "y"), .constInt 0⟩])
      = "if (x === 1) \x7b return 1 \x7d else if (y) \x7b return 0 \x7d else \x7b throw \"Bad match\" \x7d" :=
  claim_c1 (.var "x") []
    [⟨.litInt 1, none, .constInt 1⟩, ⟨.wildcard, some (.varRef "y"), .constInt 0⟩]
    (by decide)

/-- C2: a guard reference to a pattern variable compiles to the variable's raw
extraction path, never a materialized local; the local bindings are emitted
only inside the taken branch, after the combined test, and only for bindings
referenced by the guard or body; concretely `case xs { #(x) if x -> 1; _ -> 0 }`
lowers to `if (xs[0]) { let x = xs[0]; return 1 } else { return 0 }`. -/
theorem claim_c2 (bs : List Binding) (env : Env) (n : String) (p : TargetExpr)
    (h : lookupBinding bs n = some p) :
    compileGuard bs env (.varRef n) = p ∧
    (∀ (subject : TargetExpr) (env' : Env) (c : Clause),
        ((lowerClause subject env' c).2.1).map Prod.snd
          = ((patternBindings c.pattern subject).filter
              (fun b => (clauseRefs c).contains b.name)).map Binding.path) ∧
    compileGuard (patternBindings (.tuple [.pvar "x"]) (.var "xs")) [] (.varRef "x")
      = .index (.var "xs") 0 ∧
    renderCase (lowerClauses (.var "xs") []
        [⟨.tuple [.pvar "x"], some (.varRef "x"), .constInt 1⟩, ⟨.wildcard, none, .constInt 0⟩])
      = "if (xs[0]) \x7b let x = xs[0]; return 1 \x7d else \x7b return 0 \x7d" := by
  refine ⟨?_, ?_, by decide, by decide⟩
  · simp only [compileGuard, h]
  · intro subject env' c
    exact lowerClause_decl_paths subject env' c

theorem claim_c2_witness :
    lookupBinding (patternBindings (.tuple [.pvar "x"]) (.var "xs")) "x"
      = some (.index (.var "xs") 0) ∧
    compileGuard (patternBindings (.tuple [.pvar "x"]) (.var "xs")) [] (.varRef "x")
      = .index (.var "xs") 0 ∧
    (∀ (subject : TargetExpr) (env' : Env) (c : Clause),
        ((lowerClause subject env' c).2.1).map Prod.snd
          = ((patternBindings c.pattern subject).filter
              (fun b => (clauseRefs c).contains b.name)).map Binding.path) ∧
    compileGuard (patternBindings (.tuple [.pvar "x"]) (.var "xs")) [] (.varRef "x")
      = .index (.var "xs") 0 ∧
    renderCase (lowerClauses (.var "xs") []
        [⟨.tuple [.pvar "x"], some (.varRef "x"), .constInt 1⟩, ⟨.wildcard, none, .constInt 0⟩])
      = "if (xs[0]) \x7b let x = xs[0]; return 1 \x7d else \x7b return 0 \x7d" :=
  ⟨by decide,
   claim_c2 (patternBindings (.tuple [.pvar "x"]) (.var "xs")) [] "x"
     (.index (.var "xs") 0) (by decide)⟩

/-- C3: a binary guard operand that is itself a binary operator of precedence
less than or equal to its parent's is wrapped in parentheses when emitted, on
either side, including when parent and child are the same operator; concretely
the guard `x == { y == z }` emits `xs[0] === (y === z)` and `{ x == y } == z`
emits `(xs[0] === y) === z`. -/
theorem claim_c3 (op cop : JsOp) (l r a b : TargetExpr) (h : cop.prec ≤ op.prec) :
    (renderExpr (.binop op (.binop cop a b) r)
        = "(" ++ renderExpr (.binop cop a b) ++ ")" ++ " " ++ op.symbol ++ " "
            ++ (if needParens op.prec r then "(" ++ renderExpr r ++ ")" else renderExpr r)) ∧
    (renderExpr (.binop op l (.binop cop a b))
        = (if needParens op.prec l then "(" ++ renderExpr l ++ ")" else renderExpr l)
            ++ " " ++ op.symbol ++ " " ++ ("(" ++ renderExpr (.binop cop a b) ++ ")")) ∧
    renderExpr (compileGuard (patternBindings (.tuple [.pvar "x"]) (.var "xs")) []
        (.binaryOp .eq (.varRef "x") (.binaryOp .eq (.varRef "y") (.varRef "z"))))
      = "xs[0] === (y === z)" ∧
    renderExpr (compileGuard (patternBindings (.tuple [.pvar "x"]) (.var "xs")) []
        (.binaryOp .eq (.binaryOp .eq (.varRef "x") (.varRef "y")) (.varRef "z")))
      = "(xs[0] === y) === z" := by
  have hp : needParens op.prec (.binop cop a b) = true := by
    simp [needParens, TargetExpr.headPrec, h]
  refine ⟨?_, ?_, by decide, by decide⟩
  · conv_lhs => rw [renderExpr]
    rw [hp]
    simp
  · conv_lhs => rw [renderExpr]
    rw [hp]
    simp

theorem claim_c3_witness :
    JsOp.prec .eq ≤ JsOp.prec .eq ∧
    (renderExpr (.binop .eq (.binop .eq (.var "y") (.var "z")) (.var "w"))
        = "(" ++ renderExpr (.binop .eq (.var "y") (.var "z")) ++ ")" ++ " "
            ++ JsOp.symbol .eq ++ " "
            ++ (if needParens (JsOp.prec .eq) (.var "w")
                then "(" ++ renderExpr (.var "w") ++ ")" else renderExpr (.var "w"))) ∧
    (renderExpr (.binop .eq (.var "w") (.binop .eq (.var "y") (.var "z")))
        = (if needParens (JsOp.prec .eq) (.var "w")
           then "(" ++ renderExpr (.var "w") ++ ")" else renderExpr (.var "w"))
            ++ " " ++ JsOp.symbol .eq ++ " "
            ++ ("(" ++ renderExpr (.binop .eq (.var "y") (.var "z")) ++ ")")) ∧
    renderExpr (compileGuard (patternBindings (.tuple [.pvar "x"]) (.var "xs")) []
        (.binaryOp .eq (.varRef "x") (.binaryOp .eq (.varRef "y") (.varRef "z"))))
      = "xs[0] === (y === z)" ∧
    renderExpr (compileGuard (patternBindings (.tuple [.pvar "x"]) (.var "xs")) []
        (.binaryOp .eq (.binaryOp .eq (.varRef "x") (.varRef "y")) (.varRef "z")))
      = "(xs[0] === y) === z" :=
  ⟨by decide, claim_c3 .eq .eq (.var "w") (.var "w") (.var "y") (.var "z") (by decide)⟩

/-- C4: successive same-named `let` bindings advance the name's generation,
later references resolve to the most recent generation, the emitted identifier
is the unmodified name for generation 0 and a deterministically suffixed name
for generation ≥ 1, and identifiers of distinct generations are pairwise
distinct; concretely after `let x = False` then `let x = True` the guard
`if x` tests `x$1`, never the first `x`. -/
theorem claim_c4 (name : String) (env : Env) {g₁ g₂ : Nat} (h : g₁ ≠ g₂) :
    rename name 0 = name ∧
    (g₁ ≠ 0 → rename name g₁ = name ++ "$" ++ ⟨natChars g₁⟩) ∧
    rename name g₁ ≠ rename name g₂ ∧
    ((env.bind name).2).resolve name = (env.bind name).1 ∧
    compileGuard [] (lowerLets [] [("x", .constBool false), ("x", .constBool true)]).2
        (.varRef "x") = .var "x$1" ∧
    String.join (((lowerLets [] [("x", .constBool false), ("x", .constBool true)]).1).map
        renderDecl)
      = "let x = false; let x$1 = true; " ∧
    renderCase (lowerClauses
        (compileGuard [] (lowerLets [] [("x", .constBool false), ("x", .constBool true)]).2
          (.varRef "x"))
        (lowerLets [] [("x", .constBool false), ("x", .constBool true)]).2
        [⟨.wildcard, some (.varRef "x"), .constInt 1⟩, ⟨.wildcard, none, .constInt 0⟩])
      = "if (x$1) \x7b return 1 \x7d else \x7b return 0 \x7d" :=
  ⟨rename_zero name, fun hg => rename_pos name hg, rename_injective_gen name h,
   resolve_bind env name, by decide, by decide, by decide⟩

theorem claim_c4_witness :
    (0 : Nat) ≠ 1 ∧
    (rename "x" 0 = "x" ∧
     ((0 : Nat) ≠ 0 → rename "x" 0 = "x" ++ "$" ++ ⟨natChars 0⟩) ∧
     rename "x" 0 ≠ rename "x" 1 ∧
     ((Env.bind [] "x").2).resolve "x" = (Env.bind [] "x").1 ∧
     compileGuard [] (lowerLets [] [("x", .constBool false), ("x", .constBool true)]).2
         (.varRef "x") = .var "x$1" ∧
     String.join (((lowerLets [] [("x", .constBool false), ("x", .constBool true)]).1).map
         renderDecl)
       = "let x = false; let x$1 = true; " ∧
     renderCase (lowerClauses
         (compileGuard [] (lowerLets [] [("x", .constBool false), ("x", .constBool true)]).2
           (.varRef "x"))
         (lowerLets [] [("x", .constBool false), ("x", .constBool true)]).2
         [⟨.wildcard, some (.varRef "x"), .constInt 1⟩, ⟨.wildcard, none, .constInt 0⟩])
       = "if (x$1) \x7b return 1 \x7d else \x7b return 0 \x7d") :=
  ⟨by decide, claim_c4 "x" [] (by decide)⟩

/-- C5: a case expression whose final clause is an irrefutable wildcard with
no guard lowers to a chain ending in a plain `else` executing that clause's
body, with no "Bad match" branch; without such a final clause the "Bad match"
branch is present. -/
theorem claim_c5 (subject : TargetExpr) (env : Env) (cs : List Clause) (body : GuardExpr)
    (h : ∀ c ∈ cs, (lowerClause subject env c).1 ≠ none) :
    (lowerClauses subject env (cs ++ [⟨.wildcard, none, body⟩])).tail
      = .otherwise [] (compileGuard [] env body) ∧
    (lowerClauses subject env cs).tail = .badMatch := by
  constructor
  · rw [lowerClauses_final_wildcard subject env body cs h]
  · rw [lowerClauses_refutable subject env cs h]

theorem claim_c5_witness :
    (lowerClauses (.var "xs") ([] : Env)
        ([⟨.tuple [.pvar "x"], some (.varRef "x"), .constInt 1⟩]
          ++ [⟨.wildcard, none, .constInt 0⟩])).tail
      = .otherwise [] (compileGuard [] [] (.constInt 0)) ∧
    (lowerClauses (.var "xs") ([] : Env)
        [⟨.tuple [.pvar "x"], some (.varRef "x"), .constInt 1⟩]).tail = .badMatch :=
  claim_c5 (.var "xs") [] [⟨.tuple [.pvar "x"], some (.varRef "x"), .constInt 1⟩]
    (.constInt 0) (by decide)

/-- C6: guard binary operators map to the target's operators with `Equal`
emitted as strict equality `===` and `NotEqual` as strict inequality `!==`;
concretely guard `x == y` compiles to `xs[0] === y` and `x != y` to
`xs[0] !== y`. -/
theorem claim_c6 (bs : List Binding) (env : Env) (l r : GuardExpr) :
    compileGuard bs env (.binaryOp .eq l r)
        = .binop .eq (compileGuard bs env l) (compileGuard bs env r) ∧
    compileGuard bs env (.binaryOp .neq l r)
        = .binop .neq (compileGuard bs env l) (compileGuard bs env r) ∧
    JsOp.symbol .eq = "===" ∧
    JsOp.symbol .neq = "!==" ∧
    renderExpr (compileGuard (patternBindings (.tuple [.pvar "x"]) (.var "xs")) []
        (.binaryOp .eq (.varRef "x") (.varRef "y"))) = "xs[0] === y" ∧
    renderExpr (compileGuard (patternBindings (.tuple [.pvar "x"]) (.var "xs")) []
        (.binaryOp .neq (.varRef "x") (.varRef "y"))) = "xs[0] !== y" :=
  ⟨rfl, rfl, rfl, rfl, by decide, by decide⟩

/-- C7: a guard tuple access compiles to the compiled operand followed by an
index access, and a guard-only reference with no pattern variable emits no
extraction binding; concretely guard `xs.2` emits `xs[2]` and the lowered
branch for `_ if xs.2 -> 1` materializes no local. -/
theorem claim_c7 (bs : List Binding) (env : Env) (e : GuardExpr) (i : Nat) :
    compileGuard bs env (.tupleAccess e i) = .index (compileGuard bs env e) i ∧
    renderExpr (compileGuard [] [] (.tupleAccess (.varRef "xs") 2)) = "xs[2]" ∧
    (lowerClause (.var "x") []
        ⟨.wildcard, some (.tupleAccess (.varRef "xs") 2), .constInt 1⟩).2.1 = [] ∧
    renderCase (lowerClauses (.var "x") []
        [⟨.wildcard, some (.tupleAccess (.varRef "xs") 2), .constInt 1⟩,
         ⟨.wildcard, none, .constInt 0⟩])
      = "if (xs[2]) \x7b return 1 \x7d else \x7b return 0 \x7d" :=
  ⟨rfl, by decide, by decide, by decide⟩

/-- C8: a clause whose pattern test is trivially true but which carries a
guard gets the compiled guard itself as its branch condition — the trivial
test is omitted, never emitted as a `true &&` conjunct; concretely clause
`_ if y` gets condition `y` and clause `_ if xs.2` gets condition `xs[2]`. -/
theorem claim_c8 (subject : TargetExpr) (env : Env) (g b : GuardExpr) :
    (lowerClause subject env ⟨.wildcard, some g, b⟩).1
      = some (compileGuard [] env g) ∧
    (lowerClause (.var "x") [] ⟨.wildcard, some (.varRef "y"), .constInt 0⟩).1
      = some (.var "y") ∧
    (lowerClause (.var "x") []
        ⟨.wildcard, some (.tupleAccess (.varRef "xs") 2), .constInt 1⟩).1
      = some (.index (.var "xs") 2) :=
  ⟨rfl, by decide, by decide⟩

theorem dropLit_self : ∀ (L r : List Char), dropLit L (L ++ r) = some r := by
  intro L
  induction L with
  | nil => intro r; rfl
  | cons c cs ih => intro r; simp [dropLit, ih]

theorem dropLit_shared (P : List Char) :
    ∀ A M : List Char, dropLit (P ++ A) (P ++ M) = dropLit A M := by
  induction P with
  | nil => intro A M; rfl
  | cons c cs ih => intro A M; simp [dropLit, ih]

theorem dropLit_cons_ne {c d : Char} (h : c ≠ d) (cs rest : List Char) :
    dropLit (c :: cs) (d :: rest) = none := by
  simp [dropLit, h]

theorem takeWhile_append_not {p : Char → Bool} :
    ∀ l : List Char, (∀ x ∈ l, p x = true) → ∀ c : Char, p c = false → ∀ r,
      (l ++ c :: r).takeWhile p = l := by
  intro l
  induction l with
  | nil =>
    intro _ c hc r
    rw [List.nil_append, List.takeWhile_cons, hc]
    rfl
  | cons a as ih =>
    intro hall c hc r
    have ha := hall a (List.mem_cons_self a as)
    rw [List.cons_append, List.takeWhile_cons, ha,
      ih (fun x hx => hall x (List.mem_cons_of_mem _ hx)) c hc r]
    rfl

theorem dropWhile_append_not {p : Char → Bool} :
    ∀ l : List Char, (∀ x ∈ l, p x = true) → ∀ c : Char, p c = false → ∀ r,
      (l ++ c :: r).dropWhile p = c :: r := by
  intro l
  induction l with
  | nil =>
    intro _ c hc r
    rw [List.nil_append, List.dropWhile_cons, hc]
    rfl
  | cons a as ih =>
    intro hall c hc r
    have ha := hall a (List.mem_cons_self a as)
    rw [List.cons_append, List.dropWhile_cons, ha,
      ih (fun x hx => hall x (List.mem_cons_of_mem _ hx)) c hc r]
    rfl

theorem parseBasicStringFuel_verbatim :
    ∀ content : List Char, (∀ c ∈ content, tomlStringChar c) →
      ∀ f rest, content.length < f →
        parseBasicStringFuel f (content ++ '"' :: rest) = some (content, rest) := by
  intro content
  induction content with
  | nil =>
    intro _ f rest hf
    obtain ⟨g, rfl⟩ : ∃ g, f = g + 1 := ⟨f - 1, by omega⟩
    rw [List.nil_append, parseBasicStringFuel, if_pos rfl]
  | cons c cs ih =>
    intro hall f rest hf
    obtain ⟨g, rfl⟩ : ∃ g, f = g + 1 := ⟨f - 1, by omega⟩
    obtain ⟨hq, hbs, hctl⟩ := hall c (List.mem_cons_self c cs)
    have hlen : cs.length < g := by
      have : (c :: cs).length = cs.length + 1 := rfl
      omega
    have hcs := ih (fun c' h' => hall c' (List.mem_cons_of_mem _ h')) g rest hlen
    rw [List.cons_append, parseBasicStringFuel, if_neg hq, if_neg hbs, if_pos hctl, hcs]
    rfl

theorem parseBasicString_verbatim (content : List Char)
    (h : ∀ c ∈ content, tomlStringChar c) (rest : List Char) :
    parseBasicString (content ++ '"' :: rest) = some (content, rest) := by
  unfold parseBasicString
  refine parseBasicStringFuel_verbatim content h _ rest ?_
  rw [List.length_append, List.length_cons]
  omega

theorem parseBasicString_escape_tab :
    parseBasicString ("a\\tb\"x").data = some (("a\tb").data, ['x']) := rfl

theorem parseBasicString_escape_unknown :
    parseBasicString ("a\\qb\"").data = none := rfl

theorem parseBasicString_control_rejected :
    parseBasicString [Char.ofNat 7, '"'] = none := rfl

theorem parseBasicString_unicode_escape :
    parseBasicString ("\\u0041\"").data = some (['A'], []) := rfl

theorem digit_toNat {c : Char} (h : c.isDigit = true) : 48 ≤ c.toNat ∧ c.toNat ≤ 57 := by
  simp [Char.isDigit] at h
  exact ⟨h.1, h.2⟩

theorem tomlStringChar_of_digit {c : Char} (h : c.isDigit = true) : tomlStringChar c := by
  obtain ⟨h1, h2⟩ := digit_toNat h
  refine ⟨?_, ?_, Or.inr ⟨by omega, by omega⟩⟩
  · rintro rfl
    exact absurd h1 (by decide)
  · rintro rfl
    exact absurd h2 (by decide)

theorem tomlStringChar_dot : tomlStringChar '.' := by decide

theorem tomlStringChar_versionChars (v : Version) :
    ∀ c ∈ versionChars v, tomlStringChar c := by
  intro c hc
  unfold versionChars at hc
  rcases List.mem_append.mp hc with h1 | h2
  · rcases List.mem_append.mp h1 with h3 | h4
    · exact tomlStringChar_of_digit (natChars_all_digits _ _ h3)
    · rcases List.mem_cons.mp h4 with rfl | h6
      · exact tomlStringChar_dot
      · exact tomlStringChar_of_digit (natChars_all_digits _ _ h6)
  · rcases List.mem_cons.mp h2 with rfl | h6
    · exact tomlStringChar_dot
    · exact tomlStringChar_of_digit (natChars_all_digits _ _ h6)

theorem tomlStringChar_of_bareKey {c : Char} (h : isBareKeyChar c = true) :
    tomlStringChar c := by
  rw [isBareKeyChar, decide_eq_true_eq] at h
  rcases h with ⟨h1, h2⟩ | ⟨h1, h2⟩ | ⟨h1, h2⟩ | rfl | rfl
  · exact ⟨by rintro rfl; exact absurd h1 (by decide),
      by rintro rfl; exact absurd h2 (by decide), Or.inr ⟨by omega, by omega⟩⟩
  · exact ⟨by rintro rfl; exact absurd h1 (by decide),
      by rintro rfl; exact absurd h1 (by decide), Or.inr ⟨by omega, by omega⟩⟩
  · exact ⟨by rintro rfl; exact absurd h1 (by decide),
      by rintro rfl; exact absurd h2 (by decide), Or.inr ⟨by omega, by omega⟩⟩
  · decide
  · decide

theorem ne_nl_of_tomlStringChar {c : Char} (h : tomlStringChar c) : c ≠ '\n' := by
  rintro rfl
  rcases h.2.2 with h9 | ⟨h32, _⟩
  · exact absurd h9 (by decide)
  · exact absurd h32 (by decide)

theorem StrOk.not_nl {s : String} (h : StrOk s) : ('\n' : Char) ∉ s.data :=
  fun hm => ne_nl_of_tomlStringChar (h _ hm) rfl

theorem StrOk.not_quote {s : String} (h : StrOk s) : ('"' : Char) ∉ s.data :=
  fun hm => (h _ hm).1 rfl

theorem splitOnChar_append (sep : Char) :
    ∀ pre : List Char, sep ∉ pre →
      ∀ rest, splitOnChar sep (pre ++ sep :: rest) = pre :: splitOnChar sep rest := by
  intro pre
  induction pre with
  | nil => intro _ rest; simp [splitOnChar]
  | cons c cs ih =>
    intro hmem rest
    have hc : c ≠ sep := fun he => hmem (he ▸ List.mem_cons_self c cs)
    have hcs : sep ∉ cs := fun hm => hmem (List.mem_cons_of_mem c hm)
    simp [splitOnChar, hc, ih hcs rest]

theorem splitOnChar_no_sep (sep : Char) :
    ∀ l : List Char, sep ∉ l → splitOnChar sep l = [l] := by
  intro l
  induction l with
  | nil => intro _; rfl
  | cons c cs ih =>
    intro hmem
    have hc : c ≠ sep := fun he => hmem (he ▸ List.mem_cons_self c cs)
    have hcs : sep ∉ cs := fun hm => hmem (List.mem_cons_of_mem c hm)
    simp [splitOnChar, hc, ih hcs]

theorem splitOnChar_flatten (sep : Char) :
    ∀ bodies : List (List Char), (∀ b ∈ bodies, sep ∉ b) →
      ∀ tail, splitOnChar sep ((bodies.map (fun l => l ++ [sep])).flatten ++ tail)
        = bodies ++ splitOnChar sep tail := by
  intro bodies
  induction bodies with
  | nil => intro _ tail; rfl
  | cons b bs ih =>
    intro hall tail
    have hb : sep ∉ b := hall b (List.mem_cons_self b bs)
    have hbs := ih (fun b' hb' => hall b' (List.mem_cons_of_mem _ hb'))
    have hflat : ((List.map (fun l => l ++ [sep]) (b :: bs)).flatten ++ tail)
        = b ++ sep :: ((List.map (fun l => l ++ [sep]) bs).flatten ++ tail) := by
      simp
    rw [hflat, splitOnChar_append sep b hb, hbs tail, List.cons_append]

theorem parseNatChars_natChars (n : Nat) : parseNatChars (natChars n) = some n := by
  unfold parseNatChars
  rw [if_pos]
  · rw [digitsVal_natChars]
  · refine ⟨natChars_ne_nil n, ?_⟩
    rw [List.all_eq_true]
    exact natChars_all_digits n

theorem not_mem_natChars {c : Char} (hc : c.isDigit = false) (n : Nat) :
    c ∉ natChars n := by
  intro hmem
  have h2 := natChars_all_digits n c hmem
  rw [h2] at hc
  exact Bool.noConfusion hc

theorem splitOnChar_versionChars (v : Version) :
    splitOnChar '.' (versionChars v)
      = [natChars v.major, natChars v.minor, natChars v.patch] := by
  unfold versionChars
  simp only [List.cons_append, List.append_assoc]
  have h1 : ('.' : Char) ∉ natChars v.major := not_mem_natChars (by decide) _
  have h2 : ('.' : Char) ∉ natChars v.minor := not_mem_natChars (by decide) _
  have h3 : ('.' : Char) ∉ natChars v.patch := not_mem_natChars (by decide) _
  rw [splitOnChar_append '.' (natChars v.major) h1]
  rw [splitOnChar_append '.' (natChars v.minor) h2]
  rw [splitOnChar_no_sep '.' (natChars v.patch) h3]

theorem parseVersion_versionChars (v : Version) :
    parseVersion (versionChars v) = some v := by
  unfold parseVersion
  simp only [splitOnChar_versionChars v, parseNatChars_natChars]

theorem hexVal_hexCharUpper {n : Nat} (h : n < 16) : hexVal (hexCharUpper n) = some n := by
  interval_cases n <;> decide

theorem hexCharUpper_range {n : Nat} (h : n < 16) :
    (hexCharUpper n).isDigit = true
      ∨ (65 ≤ (hexCharUpper n).toNat ∧ (hexCharUpper n).toNat ≤ 70) := by
  interval_cases n <;> first
    | exact Or.inl (by decide)
    | exact Or.inr (by decide)

theorem parseHexBytes_checksumChars :
    ∀ bs : List Nat, (∀ b ∈ bs, b < 256) → parseHexBytes (checksumChars bs) = some bs := by
  intro bs
  induction bs with
  | nil => intro _; rfl
  | cons b bs ih =>
    intro hall
    have hb : b < 256 := hall b (List.mem_cons_self b bs)
    have hbs := ih (fun b' hb' => hall b' (List.mem_cons_of_mem _ hb'))
    have hhi : b / 16 % 16 < 16 := Nat.mod_lt _ (by omega)
    have hlo : b % 16 < 16 := Nat.mod_lt _ (by omega)
    have hchk : checksumChars (b :: bs)
        = hexCharUpper (b / 16 % 16) :: hexCharUpper (b % 16) :: checksumChars bs := by
      simp [checksumChars, byteHex]
    rw [hchk]
    simp only [parseHexBytes, hexVal_hexCharUpper hhi, hexVal_hexCharUpper hlo, hbs]
    have hbval : 16 * (b / 16 % 16) + b % 16 = b := by omega
    rw [hbval]

theorem mem_checksumChars {c : Char} {bs : List Nat} (hbs : ∀ b ∈ bs, b < 256)
    (hc : c ∈ checksumChars bs) :
    c.isDigit = true ∨ (65 ≤ c.toNat ∧ c.toNat ≤ 70) := by
  unfold checksumChars at hc
  rw [List.mem_flatten] at hc
  obtain ⟨l, hl, hcl⟩ := hc
  rw [List.mem_map] at hl
  obtain ⟨b, hb, rfl⟩ := hl
  have h256 := hbs b hb
  have hhi : b / 16 % 16 < 16 := Nat.mod_lt _ (by omega)
  have hlo : b % 16 < 16 := Nat.mod_lt _ (by omega)
  unfold byteHex at hcl
  simp only [List.mem_cons, List.not_mem_nil, or_false] at hcl
  rcases hcl with rfl | rfl
  · exact hexCharUpper_range hhi
  · exact hexCharUpper_range hlo

theorem tomlStringChar_checksumChars {bs : List Nat} (hbs : ∀ b ∈ bs, b < 256) :
    ∀ c ∈ checksumChars bs, tomlStringChar c := by
  intro c hc
  rcases mem_checksumChars hbs hc with hd | hd
  · exact tomlStringChar_of_digit hd
  · obtain ⟨h1, h2⟩ := hd
    exact ⟨by rintro rfl; exact absurd h1 (by decide),
      by rintro rfl; exact absurd h2 (by decide), Or.inr ⟨by omega, by omega⟩⟩

theorem parseItemsFuel_round :
    ∀ ts : List String, (∀ t ∈ ts, StrOk t) →
      ∀ f, ts.length ≤ f → ∀ rest,
        parseItemsFuel f (quotedItemsChars ts ++ ']' :: rest) = some (ts, rest) := by
  intro ts
  induction ts with
  | nil =>
    intro _ f _ rest
    rw [show quotedItemsChars [] = ([] : List Char) from rfl, List.nil_append]
    cases f <;> rfl
  | cons t ts ih =>
    intro hall f hf rest
    obtain ⟨g, rfl⟩ : ∃ g, f = g + 1 := by
      refine ⟨f - 1, ?_⟩
      have : (t :: ts).length = ts.length + 1 := rfl
      omega
    have ht : StrOk t := hall t (List.mem_cons_self t ts)
    have hts := ih (fun u hu => hall u (List.mem_cons_of_mem _ hu))
    have hshape : quotedItemsChars (t :: ts) ++ ']' :: rest
        = '"' :: (t.data ++ '"' :: (quotedMore ts ++ ']' :: rest)) := by
      simp [quotedItemsChars]
    rw [hshape, parseItemsFuel]
    rw [parseBasicString_verbatim t.data ht (quotedMore ts ++ ']' :: rest)]
    cases ts with
    | nil => rfl
    | cons u us =>
      have hq : quotedMore (u :: us) ++ ']' :: rest
          = ',' :: ' ' :: (quotedItemsChars (u :: us) ++ ']' :: rest) := by
        simp [quotedMore, quotedItemsChars]
      rw [hq]
      have hlen : (u :: us).length ≤ g := by
        have h1 : (t :: u :: us).length = (u :: us).length + 1 := rfl
        omega
      simp only [hts g hlen rest]

theorem mem_quotedMore {c : Char} :
    ∀ ts : List String, c ∈ quotedMore ts →
      c = ',' ∨ c = ' ' ∨ c = '"' ∨ ∃ t ∈ ts, c ∈ t.data := by
  intro ts
  induction ts with
  | nil => intro h; cases h
  | cons t ts ih =>
    intro h
    have hq : quotedMore (t :: ts)
        = [',', ' ', '"'] ++ t.data ++ '"' :: quotedMore ts := by
      simp [quotedMore]
    rw [hq] at h
    simp only [List.mem_append, List.mem_cons, List.not_mem_nil, or_false] at h
    rcases h with ((h | h | h) | h) | h | h
    · exact Or.inl h
    · exact Or.inr (Or.inl h)
    · exact Or.inr (Or.inr (Or.inl h))
    · exact Or.inr (Or.inr (Or.inr ⟨t, List.mem_cons_self t ts, h⟩))
    · exact Or.inr (Or.inr (Or.inl h))
    · rcases ih h with h | h | h | ⟨t', ht', hc⟩
      · exact Or.inl h
      · exact Or.inr (Or.inl h)
      · exact Or.inr (Or.inr (Or.inl h))
      · exact Or.inr (Or.inr (Or.inr ⟨t', List.mem_cons_of_mem _ ht', hc⟩))

theorem mem_quotedItemsChars {c : Char} :
    ∀ ts : List String, c ∈ quotedItemsChars ts →
      c = ',' ∨ c = ' ' ∨ c = '"' ∨ ∃ t ∈ ts, c ∈ t.data := by
  intro ts h
  cases ts with
  | nil => cases h
  | cons t ts =>
    have hq : quotedItemsChars (t :: ts) = '"' :: (t.data ++ '"' :: quotedMore ts) := by
      simp [quotedItemsChars]
    rw [hq] at h
    simp only [List.mem_cons, List.mem_append] at h
    rcases h with h | h | h | h
    · exact Or.inr (Or.inr (Or.inl h))
    · exact Or.inr (Or.inr (Or.inr ⟨t, List.mem_cons_self t ts, h⟩))
    · exact Or.inr (Or.inr (Or.inl h))
    · rcases mem_quotedMore ts h with h | h | h | ⟨t', ht', hc⟩
      · exact Or.inl h
      · exact Or.inr (Or.inl h)
      · exact Or.inr (Or.inr (Or.inl h))
      · exact Or.inr (Or.inr (Or.inr ⟨t', List.mem_cons_of_mem _ ht', hc⟩))

theorem parseTagged_self (tag : List Char) (v : String) (hv : StrOk v) :
    parseTagged tag
      (('\x7b' :: ' ' :: (tag ++ (" = \"").data)) ++ (v.data ++ '"' :: [' ', '\x7d']))
      = some v := by
  unfold parseTagged
  simp only [dropLit_self, parseBasicString_verbatim v.data hv [' ', '\x7d']]
  rfl

theorem parseTagged_ne {c d : Char} (h : c ≠ d) (A B : List Char) :
    parseTagged (c :: A) ('\x7b' :: ' ' :: d :: B) = none := by
  unfold parseTagged
  rw [show ('\x7b' :: ' ' :: ((c :: A) ++ (" = \"").data))
      = ['\x7b', ' '] ++ (c :: (A ++ (" = \"").data)) from rfl]
  rw [show ('\x7b' :: ' ' :: d :: B) = ['\x7b', ' '] ++ (d :: B) from rfl]
  rw [dropLit_shared ['\x7b', ' ']]
  rw [dropLit_cons_ne h]

theorem parseReqValue_round (r : Requirement) (h : ReqValueOk r) :
    parseReqValue r.tomlChars = some r := by
  cases r with
  | hex range =>
    have hx : StrOk range := h
    have hshape : (Requirement.hex range).tomlChars
        = ('\x7b' :: ' ' :: (("version").data ++ (" = \"").data))
            ++ (range.data ++ '"' :: [' ', '\x7d']) := by
      show ("\x7b version = \"").data ++ range.data ++ ("\" \x7d").data = _
      simp
    unfold parseReqValue
    rw [hshape, parseTagged_self ("version").data range hx]
  | git url =>
    have hx : StrOk url := h
    have hgit : (Requirement.git url).tomlChars
        = '\x7b' :: ' ' :: 'g' :: ((("it = \"").data ++ url.data) ++ ("\" \x7d").data) := rfl
    have hnone : parseTagged ("version").data (Requirement.git url).tomlChars = none := by
      rw [show ("version").data = 'v' :: ("ersion").data from rfl, hgit]
      exact parseTagged_ne (by decide) _ _
    have hshape : (Requirement.git url).tomlChars
        = ('\x7b' :: ' ' :: (("git").data ++ (" = \"").data))
            ++ (url.data ++ '"' :: [' ', '\x7d']) := by
      show ("\x7b git = \"").data ++ url.data ++ ("\" \x7d").data = _
      simp
    unfold parseReqValue
    rw [hnone, hshape, parseTagged_self ("git").data url hx]
  | path p =>
    have hx : StrOk p := h
    have hpath : (Requirement.path p).tomlChars
        = '\x7b' :: ' ' :: 'p' :: ((("ath = \"").data ++ p.data) ++ ("\" \x7d").data) := rfl
    have hnone1 : parseTagged ("version").data (Requirement.path p).tomlChars = none := by
      rw [show ("version").data = 'v' :: ("ersion").data from rfl, hpath]
      exact parseTagged_ne (by decide) _ _
    have hnone2 : parseTagged ("git").data (Requirement.path p).tomlChars = none := by
      rw [show ("git").data = 'g' :: ("it").data from rfl, hpath]
      exact parseTagged_ne (by decide) _ _
    have hshape : (Requirement.path p).tomlChars
        = ('\x7b' :: ' ' :: (("path").data ++ (" = \"").data))
            ++ (p.data ++ '"' :: [' ', '\x7d']) := by
      show ("\x7b path = \"").data ++ p.data ++ ("\" \x7d").data = _
      simp
    unfold parseReqValue
    rw [hnone1, hnone2, hshape, parseTagged_self ("path").data p hx]

theorem parseReqLine_round (r : String × Requirement) (h : ReqOk r) :
    parseReqLine (reqLineBody r) = some r := by
  obtain ⟨hne, hbare, hval⟩ := h
  unfold parseReqLine reqLineBody
  have hshape : r.1.data ++ (" = ").data ++ r.2.tomlChars
      = r.1.data ++ ' ' :: (("= ").data ++ r.2.tomlChars) := by
    simp
  rw [hshape]
  rw [takeWhile_append_not r.1.data hbare ' ' (by decide) _]
  rw [dropWhile_append_not r.1.data hbare ' ' (by decide) _]
  rw [if_neg hne]
  rw [show (' ' :: (("= ").data ++ r.2.tomlChars)) = (" = ").data ++ r.2.tomlChars from rfl]
  rw [dropLit_self]
  simp only [parseReqValue_round r.2 hval]
  rfl

theorem parsePkgSourcePart_hex (c : Base16Checksum) (h : ∀ b ∈ c.bytes, b < 256)
    (tail : List Char) :
    parsePkgSourcePart (sourceChars (.hex c) ++ tail) = some (.hex c, tail) := by
  have hshape : sourceChars (.hex c) ++ tail
      = (", source = \"hex\", outer_checksum = \"").data
          ++ (checksumChars c.bytes ++ '"' :: tail) := by
    simp [sourceChars]
  unfold parsePkgSourcePart
  rw [hshape]
  simp only [dropLit_self,
    parseBasicString_verbatim (checksumChars c.bytes) (tomlStringChar_checksumChars h) tail,
    parseHexBytes_checksumChars c.bytes h]
  rfl

theorem parsePkgSourcePart_git (repo commit : String) (hr : StrOk repo) (hc : StrOk commit)
    (tail : List Char) :
    parsePkgSourcePart (sourceChars (.git repo commit) ++ tail)
      = some (.git repo commit, tail) := by
  have hne : dropLit ((", source = \"hex\", outer_checksum = \"").data)
      (sourceChars (.git repo commit) ++ tail) = none := by
    rw [show sourceChars (.git repo commit) ++ tail
        = (", source = \"").data
            ++ 'g' :: (("it\", repo = \"").data ++ repo.data
              ++ ("\", commit = \"").data ++ commit.data ++ '"' :: tail) from by
      simp [sourceChars]]
    rw [show ((", source = \"hex\", outer_checksum = \"").data)
        = (", source = \"").data ++ 'h' :: ("ex\", outer_checksum = \"").data from rfl]
    rw [dropLit_shared]
    exact dropLit_cons_ne (by decide) _ _
  have hshape : sourceChars (.git repo commit) ++ tail
      = (", source = \"git\", repo = \"").data
          ++ (repo.data ++ '"' :: ((", commit = \"").data ++ (commit.data ++ '"' :: tail))) := by
    have e1 : ("\", commit = \"").data = '"' :: (", commit = \"").data := rfl
    simp [sourceChars, e1]
  unfold parsePkgSourcePart
  rw [hne, hshape]
  simp only [dropLit_self, parseBasicString_verbatim repo.data hr _,
    parseBasicString_verbatim commit.data hc _]

theorem parsePkgSourcePart_loc (path : String) (hp : StrOk path) (tail : List Char) :
    parsePkgSourcePart (sourceChars (.loc path) ++ tail) = some (.loc path, tail) := by
  have hloc : sourceChars (.loc path) ++ tail
      = (", source = \"").data ++ 'l' :: (("ocal\", path = \"").data ++ path.data ++ '"' :: tail) := by
    simp [sourceChars]
  have hne1 : dropLit ((", source = \"hex\", outer_checksum = \"").data)
      (sourceChars (.loc path) ++ tail) = none := by
    rw [hloc]
    rw [show ((", source = \"hex\", outer_checksum = \"").data)
        = (", source = \"").data ++ 'h' :: ("ex\", outer_checksum = \"").data from rfl]
    rw [dropLit_shared]
    exact dropLit_cons_ne (by decide) _ _
  have hne2 : dropLit ((", source = \"git\", repo = \"").data)
      (sourceChars (.loc path) ++ tail) = none := by
    rw [hloc]
    rw [show ((", source = \"git\", repo = \"").data)
        = (", source = \"").data ++ 'g' :: ("it\", repo = \"").data from rfl]
    rw [dropLit_shared]
    exact dropLit_cons_ne (by decide) _ _
  have hshape : sourceChars (.loc path) ++ tail
      = (", source = \"local\", path = \"").data ++ (path.data ++ '"' :: tail) := by
    simp [sourceChars]
  unfold parsePkgSourcePart
  rw [hne1, hne2, hshape]
  simp only [dropLit_self, parseBasicString_verbatim path.data hp _]

theorem parsePkgSourcePart_round (src : ManifestPackageSource) (h : SourceOk src)
    (tail : List Char) :
    parsePkgSourcePart (sourceChars src ++ tail) = some (src, tail) := by
  cases src with
  | hex c => exact parsePkgSourcePart_hex c h tail
  | git repo commit => exact parsePkgSourcePart_git repo commit h.1 h.2 tail
  | loc path => exact parsePkgSourcePart_loc path h tail

theorem dropLit_otp_src_none (src : ManifestPackageSource) (tail : List Char) :
    dropLit ((", otp_app = \"").data) (sourceChars src ++ tail) = none := by
  have hotp : ((", otp_app = \"").data) = (", ").data ++ 'o' :: ("tp_app = \"").data := rfl
  cases src with
  | hex c =>
    rw [show sourceChars (.hex c) ++ tail
        = (", ").data ++ 's' :: (("ource = \"hex\", outer_checksum = \"").data
            ++ (checksumChars c.bytes ++ '"' :: tail)) from by simp [sourceChars]]
    rw [hotp, dropLit_shared]
    exact dropLit_cons_ne (by decide) _ _
  | git repo commit =>
    rw [show sourceChars (.git repo commit) ++ tail
        = (", ").data ++ 's' :: (("ource = \"git\", repo = \"").data
            ++ (repo.data ++ (("\", commit = \"").data ++ (commit.data ++ '"' :: tail)))) from by
      simp [sourceChars]]
    rw [hotp, dropLit_shared]
    exact dropLit_cons_ne (by decide) _ _
  | loc path =>
    rw [show sourceChars (.loc path) ++ tail
        = (", ").data ++ 's' :: (("ource = \"local\", path = \"").data
            ++ (path.data ++ '"' :: tail)) from by simp [sourceChars]]
    rw [hotp, dropLit_shared]
    exact dropLit_cons_ne (by decide) _ _

theorem length_le_quotedItemsChars :
    ∀ ts : List String, ts.length ≤ (quotedItemsChars ts).length := by
  intro ts
  induction ts with
  | nil => exact Nat.le_refl 0
  | cons t ts ih =>
    cases ts with
    | nil => simp [quotedItemsChars, quotedMore]
    | cons u us =>
      have h : quotedItemsChars (t :: u :: us)
          = ('"' :: t.data) ++ ('"' :: ',' :: ' ' :: quotedItemsChars (u :: us)) := rfl
      rw [h, List.length_append]
      simp only [List.length_cons] at ih ⊢
      omega

theorem parseItemsFuel_self (ts : List String) (h : ∀ t ∈ ts, StrOk t) (rest : List Char) :
    parseItemsFuel (quotedItemsChars ts ++ ']' :: rest).length
        (quotedItemsChars ts ++ ']' :: rest) = some (ts, rest) := by
  refine parseItemsFuel_round ts h _ ?_ rest
  rw [List.length_append, List.length_cons]
  have := length_le_quotedItemsChars ts
  omega

theorem parsePackageLine_round (p : ManifestPackage) (hp : PkgOk p) :
    parsePackageLine (pkgLineBody p) = some p := by
  obtain ⟨hname, htools, hreqs, hotp, hsrc⟩ := hp
  have e2 : ("\", version = \"").data = '"' :: (", version = \"").data := rfl
  have e3 : ("\", build_tools = [").data = '"' :: (", build_tools = [").data := rfl
  have e4 : ("], requirements = [").data = ']' :: (", requirements = [").data := rfl
  have hshape : pkgLineBody p
      = ("  \x7b name = \"").data ++ (p.name.data ++ '"' :: ((", version = \"").data
          ++ (versionChars p.version ++ '"' :: ((", build_tools = [").data
          ++ (quotedItemsChars p.buildTools ++ ']' :: ((", requirements = [").data
          ++ (quotedItemsChars p.requirements ++ ']' :: (otpChars p.otpApp
          ++ (sourceChars p.source ++ (" \x7d,").data))))))))) := by
    rw [pkgLineBody, e2, e3, e4]
    simp [List.append_assoc]
  unfold parsePackageLine
  rw [hshape]
  simp only [dropLit_self, parseBasicString_verbatim p.name.data hname _,
    parseBasicString_verbatim (versionChars p.version) (tomlStringChar_versionChars p.version) _,
    parseVersion_versionChars,
    parseItemsFuel_self p.buildTools htools _,
    parseItemsFuel_self p.requirements hreqs _]
  cases happ : p.otpApp with
  | none =>
    have hnone : dropLit [',', ' ', 'o', 't', 'p', '_', 'a', 'p', 'p', ' ', '=', ' ', '\"']
        (sourceChars p.source ++ [' ', '\x7d', ',']) = none :=
      dropLit_otp_src_none p.source _
    have hsp : parsePkgSourcePart (sourceChars p.source ++ [' ', '\x7d', ','])
        = some (p.source, [' ', '\x7d', ',']) :=
      parsePkgSourcePart_round p.source hsrc _
    simp only [otpChars, List.nil_append, hnone, hsp, if_true]
    rw [← happ]
  | some app =>
    rw [happ] at hotp
    have happStr : StrOk app := hotp
    have happC : otpChars (some app) ++ (sourceChars p.source ++ [' ', '\x7d', ','])
        = (", otp_app = \"").data
            ++ (app.data ++ '"' :: (sourceChars p.source ++ [' ', '\x7d', ','])) := by
      simp [otpChars]
    have hsp : parsePkgSourcePart (sourceChars p.source ++ [' ', '\x7d', ','])
        = some (p.source, [' ', '\x7d', ',']) :=
      parsePkgSourcePart_round p.source hsrc _
    rw [happC]
    simp only [dropLit_self, parseBasicString_verbatim app.data happStr _, hsp, if_true]
    rw [← happ]

theorem pkgLineBody_ne_close (p : ManifestPackage) : pkgLineBody p ≠ [']'] := by
  have hhead : ∃ X, pkgLineBody p = ' ' :: X := ⟨_, rfl⟩
  obtain ⟨X, hX⟩ := hhead
  rw [hX]
  intro h
  simp at h

theorem parsePkgLines_round :
    ∀ ps : List ManifestPackage, (∀ p ∈ ps, PkgOk p) →
      ∀ rest, parsePkgLines (ps.map pkgLineBody ++ [']'] :: rest) = some (ps, rest) := by
  intro ps
  induction ps with
  | nil => intro _ rest; simp [parsePkgLines]
  | cons p ps ih =>
    intro hall rest
    have hp := hall p (List.mem_cons_self p ps)
    have hps := ih (fun p' h' => hall p' (List.mem_cons_of_mem _ h')) rest
    simp only [List.map_cons, List.cons_append, parsePkgLines]
    rw [if_neg (pkgLineBody_ne_close p)]
    simp only [List.append_eq]
    rw [parsePackageLine_round p hp, hps]

theorem parseReqLines_round :
    ∀ rs : List (String × Requirement), (∀ r ∈ rs, ReqOk r) →
      parseReqLines (rs.map reqLineBody ++ [[]]) = some rs := by
  intro rs
  induction rs with
  | nil => intro _; rfl
  | cons r rs ih =>
    intro hall
    have hr := hall r (List.mem_cons_self r rs)
    have hrs := ih (fun r' h' => hall r' (List.mem_cons_of_mem _ h'))
    obtain ⟨c, nm, hcn⟩ : ∃ c nm, r.1.data = c :: nm := by
      cases h : r.1.data with
      | nil => exact absurd h hr.1
      | cons c nm => exact ⟨c, nm, rfl⟩
    have hbody : reqLineBody r = c :: ((nm ++ (" = ").data) ++ r.2.tomlChars) := by
      rw [reqLineBody, hcn]
      simp
    simp only [List.map_cons, List.cons_append]
    rw [hbody]
    simp only [parseReqLines]
    rw [← hbody, parseReqLine_round r hr, hrs]

theorem not_mem_versionChars {c : Char} (hdig : c.isDigit = false) (hdot : c ≠ '.')
    (v : Version) : c ∉ versionChars v := by
  intro h
  unfold versionChars at h
  rcases List.mem_append.mp h with h1 | h2
  · rcases List.mem_append.mp h1 with h3 | h4
    · exact not_mem_natChars hdig _ h3
    · rcases List.mem_cons.mp h4 with h5 | h6
      · exact hdot h5
      · exact not_mem_natChars hdig _ h6
  · rcases List.mem_cons.mp h2 with h5 | h6
    · exact hdot h5
    · exact not_mem_natChars hdig _ h6

theorem not_mem_quotedItemsChars {c : Char} {ts : List String} (h1 : c ≠ ',') (h2 : c ≠ ' ')
    (h3 : c ≠ '"') (hts : ∀ t ∈ ts, c ∉ t.data) : c ∉ quotedItemsChars ts := by
  intro hc
  rcases mem_quotedItemsChars ts hc with h | h | h | ⟨t, ht, hct⟩
  · exact h1 h
  · exact h2 h
  · exact h3 h
  · exact hts t ht hct

theorem not_nl_checksumChars {bs : List Nat} (hbs : ∀ b ∈ bs, b < 256) :
    ('\n' : Char) ∉ checksumChars bs := by
  intro hc
  rcases mem_checksumChars hbs hc with hd | hd
  · exact Bool.noConfusion hd
  · revert hd
    decide

theorem not_nl_sourceChars (src : ManifestPackageSource) (h : SourceOk src) :
    ('\n' : Char) ∉ sourceChars src := by
  cases src with
  | hex c =>
    intro hc
    unfold sourceChars at hc
    rcases List.mem_append.mp hc with h1 | h2
    · rcases List.mem_append.mp h1 with h3 | h4
      · exact absurd h3 (by decide)
      · exact not_nl_checksumChars h h4
    · exact absurd h2 (by decide)
  | git repo commit =>
    intro hc
    unfold sourceChars at hc
    rcases List.mem_append.mp hc with h1 | h2
    · rcases List.mem_append.mp h1 with h3 | h4
      · rcases List.mem_append.mp h3 with h5 | h6
        · rcases List.mem_append.mp h5 with h7 | h8
          · exact absurd h7 (by decide)
          · exact StrOk.not_nl h.1 h8
        · exact absurd h6 (by decide)
      · exact StrOk.not_nl h.2 h4
    · exact absurd h2 (by decide)
  | loc path =>
    intro hc
    unfold sourceChars at hc
    rcases List.mem_append.mp hc with h1 | h2
    · rcases List.mem_append.mp h1 with h3 | h4
      · exact absurd h3 (by decide)
      · exact StrOk.not_nl h h4
    · exact absurd h2 (by decide)

theorem not_nl_otpChars (o : Option String) (h : OtpOk o) : ('\n' : Char) ∉ otpChars o := by
  cases o with
  | none => intro hc; exact absurd hc (List.not_mem_nil _)
  | some app =>
    intro hc
    unfold otpChars at hc
    rcases List.mem_append.mp hc with h1 | h2
    · rcases List.mem_append.mp h1 with h3 | h4
      · exact absurd h3 (by decide)
      · exact StrOk.not_nl h h4
    · exact absurd h2 (by decide)

theorem not_nl_pkgLineBody (p : ManifestPackage) (hp : PkgOk p) :
    ('\n' : Char) ∉ pkgLineBody p := by
  obtain ⟨hname, htools, hreqs, hotp, hsrc⟩ := hp
  have hT : ('\n' : Char) ∉ quotedItemsChars p.buildTools :=
    not_mem_quotedItemsChars (by decide) (by decide) (by decide)
      (fun t ht => StrOk.not_nl (htools t ht))
  have hR : ('\n' : Char) ∉ quotedItemsChars p.requirements :=
    not_mem_quotedItemsChars (by decide) (by decide) (by decide)
      (fun t ht => StrOk.not_nl (hreqs t ht))
  intro hc
  unfold pkgLineBody at hc
  rcases List.mem_append.mp hc with h1 | h2
  swap
  · exact absurd h2 (by decide)
  rcases List.mem_append.mp h1 with h1 | h2
  swap
  · exact not_nl_sourceChars p.source hsrc h2
  rcases List.mem_append.mp h1 with h1 | h2
  swap
  · exact not_nl_otpChars p.otpApp hotp h2
  rcases List.mem_append.mp h1 with h1 | h2
  swap
  · exact absurd h2 (by decide)
  rcases List.mem_append.mp h1 with h1 | h2
  swap
  · exact hR h2
  rcases List.mem_append.mp h1 with h1 | h2
  swap
  · exact absurd h2 (by decide)
  rcases List.mem_append.mp h1 with h1 | h2
  swap
  · exact hT h2
  rcases List.mem_append.mp h1 with h1 | h2
  swap
  · exact absurd h2 (by decide)
  rcases List.mem_append.mp h1 with h1 | h2
  swap
  · exact not_mem_versionChars (by decide) (by decide) p.version h2
  rcases List.mem_append.mp h1 with h1 | h2
  swap
  · exact absurd h2 (by decide)
  rcases List.mem_append.mp h1 with h1 | h2
  swap
  · exact StrOk.not_nl hname h2
  exact absurd h1 (by decide)

theorem not_nl_tomlChars (r : Requirement) (h : ReqValueOk r) :
    ('\n' : Char) ∉ r.tomlChars := by
  cases r with
  | hex range =>
    intro hc
    unfold Requirement.tomlChars at hc
    rcases List.mem_append.mp hc with h1 | h2
    · rcases List.mem_append.mp h1 with h3 | h4
      · exact absurd h3 (by decide)
      · exact StrOk.not_nl h h4
    · exact absurd h2 (by decide)
  | git url =>
    intro hc
    unfold Requirement.tomlChars at hc
    rcases List.mem_append.mp hc with h1 | h2
    · rcases List.mem_append.mp h1 with h3 | h4
      · exact absurd h3 (by decide)
      · exact StrOk.not_nl h h4
    · exact absurd h2 (by decide)
  | path p =>
    intro hc
    unfold Requirement.tomlChars at hc
    rcases List.mem_append.mp hc with h1 | h2
    · rcases List.mem_append.mp h1 with h3 | h4
      · exact absurd h3 (by decide)
      · exact StrOk.not_nl h h4
    · exact absurd h2 (by decide)

theorem not_nl_reqLineBody (r : String × Requirement) (h : ReqOk r) :
    ('\n' : Char) ∉ reqLineBody r := by
  intro hc
  unfold reqLineBody at hc
  rcases List.mem_append.mp hc with h1 | h2
  · rcases List.mem_append.mp h1 with h3 | h4
    · exact ne_nl_of_tomlStringChar (tomlStringChar_of_bareKey (h.2.1 _ h3)) rfl
    · exact absurd h4 (by decide)
  · exact not_nl_tomlChars r.2 h.2.2 h2

theorem char_eq_of_toNat_eq {a b : Char} (h : a.toNat = b.toNat) : a = b :=
  Char.ext (UInt32.ext h)

theorem charsLe_refl : ∀ l : List Char, charsLe l l = true := by
  intro l
  induction l with
  | nil => rfl
  | cons c cs ih => simp [charsLe, ih]

theorem charsLe_total : ∀ a b : List Char, charsLe a b = true ∨ charsLe b a = true := by
  intro a
  induction a with
  | nil => intro b; exact Or.inl rfl
  | cons c cs ih =>
    intro b
    cases b with
    | nil => exact Or.inr rfl
    | cons d ds =>
      rcases Nat.lt_trichotomy c.toNat d.toNat with h | h | h
      · exact Or.inl (by simp [charsLe, h])
      · rcases ih ds with hcd | hdc
        · exact Or.inl (by simp [charsLe, h, hcd])
        · exact Or.inr (by simp [charsLe, h.symm, hdc])
      · exact Or.inr (by simp [charsLe, h])

theorem charsLe_antisymm : ∀ a b : List Char,
    charsLe a b = true → charsLe b a = true → a = b := by
  intro a
  induction a with
  | nil =>
    intro b _ hba
    cases b with
    | nil => rfl
    | cons d ds => exact Bool.noConfusion hba
  | cons c cs ih =>
    intro b hab hba
    cases b with
    | nil => exact Bool.noConfusion hab
    | cons d ds =>
      rcases Nat.lt_trichotomy c.toNat d.toNat with h | h | h
      · rw [show charsLe (d :: ds) (c :: cs)
            = (if d.toNat < c.toNat then true
               else if c.toNat < d.toNat then false else charsLe ds cs) from rfl] at hba
        rw [if_neg (by omega), if_pos h] at hba
        exact Bool.noConfusion hba
      · have hcd : c = d := char_eq_of_toNat_eq h
        subst hcd
        rw [show charsLe (c :: cs) (c :: ds)
            = (if c.toNat < c.toNat then true
               else if c.toNat < c.toNat then false else charsLe cs ds) from rfl,
          if_neg (by omega), if_neg (by omega)] at hab
        rw [show charsLe (c :: ds) (c :: cs)
            = (if c.toNat < c.toNat then true
               else if c.toNat < c.toNat then false else charsLe ds cs) from rfl,
          if_neg (by omega), if_neg (by omega)] at hba
        rw [ih ds hab hba]
      · rw [show charsLe (c :: cs) (d :: ds)
            = (if c.toNat < d.toNat then true
               else if d.toNat < c.toNat then false else charsLe cs ds) from rfl] at hab
        rw [if_neg (by omega), if_pos h] at hab
        exact Bool.noConfusion hab

theorem charsLe_trans : ∀ a b c : List Char,
    charsLe a b = true → charsLe b c = true → charsLe a c = true := by
  intro a
  induction a with
  | nil => intro b c _ _; rfl
  | cons x xs ih =>
    intro b c hab hbc
    cases b with
    | nil => exact Bool.noConfusion hab
    | cons y ys =>
      cases c with
      | nil => exact Bool.noConfusion hbc
      | cons z zs =>
        rw [show charsLe (x :: xs) (y :: ys)
            = (if x.toNat < y.toNat then true
               else if y.toNat < x.toNat then false else charsLe xs ys) from rfl] at hab
        rw [show charsLe (y :: ys) (z :: zs)
            = (if y.toNat < z.toNat then true
               else if z.toNat < y.toNat then false else charsLe ys zs) from rfl] at hbc
        rw [show charsLe (x :: xs) (z :: zs)
            = (if x.toNat < z.toNat then true
               else if z.toNat < x.toNat then false else charsLe xs zs) from rfl]
        by_cases h1 : x.toNat < y.toNat
        · by_cases h2 : y.toNat < z.toNat
          · rw [if_pos (by omega)]
          · rw [if_neg h2] at hbc
            by_cases h3 : z.toNat < y.toNat
            · rw [if_pos h3] at hbc
              exact Bool.noConfusion hbc
            · rw [if_pos (by omega)]
        · rw [if_neg h1] at hab
          by_cases h1' : y.toNat < x.toNat
          · rw [if_pos h1'] at hab
            exact Bool.noConfusion hab
          · rw [if_neg h1'] at hab
            by_cases h2 : y.toNat < z.toNat
            · rw [if_pos (by omega)]
            · rw [if_neg h2] at hbc
              by_cases h3 : z.toNat < y.toNat
              · rw [if_pos h3] at hbc
                exact Bool.noConfusion hbc
              · rw [if_neg h3] at hbc
                rw [if_neg (by omega), if_neg (by omega)]
                exact ih ys zs hab hbc

theorem strLe_refl (a : String) : strLe a a = true := charsLe_refl a.data

theorem strLe_total (a b : String) : strLe a b = true ∨ strLe b a = true :=
  charsLe_total a.data b.data

theorem strLe_antisymm {a b : String} (hab : strLe a b = true) (hba : strLe b a = true) :
    a = b := by
  have hdata : a.data = b.data := charsLe_antisymm a.data b.data hab hba
  cases a with
  | mk da =>
    cases b with
    | mk db => exact congrArg String.mk hdata

theorem strLe_trans {a b c : String} (hab : strLe a b = true) (hbc : strLe b c = true) :
    strLe a c = true := charsLe_trans a.data b.data c.data hab hbc

theorem insertOn_perm (key : α → String) (x : α) :
    ∀ l : List α, (insertOn key x l).Perm (x :: l) := by
  intro l
  induction l with
  | nil => exact List.Perm.refl _
  | cons y ys ih =>
    by_cases h : strLe (key x) (key y) = true
    · simp only [insertOn, if_pos h]
      exact List.Perm.refl _
    · simp only [insertOn, if_neg h]
      exact (ih.cons y).trans (List.Perm.swap x y ys)

theorem sortOn_perm (key : α → String) :
    ∀ l : List α, (sortOn key l).Perm l := by
  intro l
  induction l with
  | nil => exact List.Perm.refl _
  | cons x xs ih =>
    exact (insertOn_perm key x (sortOn key xs)).trans (ih.cons x)

theorem mem_insertOn {key : α → String} {x z : α} {l : List α}
    (h : z ∈ insertOn key x l) : z = x ∨ z ∈ l := by
  have := (insertOn_perm key x l).subset h
  simpa using this

theorem insertOn_pairwise (key : α → String) (x : α) :
    ∀ l : List α, List.Pairwise (fun a b => strLe (key a) (key b) = true) l →
      List.Pairwise (fun a b => strLe (key a) (key b) = true) (insertOn key x l) := by
  intro l
  induction l with
  | nil => intro _; exact List.pairwise_singleton _ _
  | cons y ys ih =>
    intro hp
    rw [List.pairwise_cons] at hp
    obtain ⟨hy, hys⟩ := hp
    by_cases h : strLe (key x) (key y) = true
    · simp only [insertOn, if_pos h]
      rw [List.pairwise_cons]
      refine ⟨?_, ?_⟩
      · intro z hz
        rcases List.mem_cons.mp hz with rfl | hz
        · exact h
        · exact strLe_trans h (hy z hz)
      · rw [List.pairwise_cons]
        exact ⟨hy, hys⟩
    · have hyx : strLe (key y) (key x) = true := by
        rcases strLe_total (key x) (key y) with h' | h'
        · exact absurd h' h
        · exact h'
      simp only [insertOn, if_neg h]
      rw [List.pairwise_cons]
      refine ⟨?_, ih hys⟩
      intro z hz
      rcases mem_insertOn hz with rfl | hz
      · exact hyx
      · exact hy z hz

theorem sortOn_pairwise (key : α → String) :
    ∀ l : List α, List.Pairwise (fun a b => strLe (key a) (key b) = true) (sortOn key l) := by
  intro l
  induction l with
  | nil => exact List.Pairwise.nil
  | cons x xs ih => exact insertOn_pairwise key x (sortOn key xs) ih

theorem sorted_nodup_unique (key : α → String) :
    ∀ l₁ l₂ : List α,
      List.Pairwise (fun a b => strLe (key a) (key b) = true) l₁ →
      List.Pairwise (fun a b => strLe (key a) (key b) = true) l₂ →
      l₁.Perm l₂ → (l₁.map key).Nodup → l₁ = l₂ := by
  intro l₁
  induction l₁ with
  | nil =>
    intro l₂ _ _ hperm _
    exact (hperm.symm.eq_nil).symm
  | cons x xs ih =>
    intro l₂ hp₁ hp₂ hperm hnodup
    cases l₂ with
    | nil => exact absurd hperm.eq_nil (by simp)
    | cons y ys =>
      rw [List.pairwise_cons] at hp₁ hp₂
      obtain ⟨hx₁, hxs⟩ := hp₁
      obtain ⟨hy₂, hys⟩ := hp₂
      have hxy : x = y := by
        have hymem : y ∈ x :: xs := hperm.symm.subset (List.mem_cons_self y ys)
        have hxmem : x ∈ y :: ys := hperm.subset (List.mem_cons_self x xs)
        rcases List.mem_cons.mp hymem with he | hy_in_xs
        · exact he.symm
        · rcases List.mem_cons.mp hxmem with he | hx_in_ys
          · exact he
          · have h1 : strLe (key x) (key y) = true := hx₁ y hy_in_xs
            have h2 : strLe (key y) (key x) = true := hy₂ x hx_in_ys
            have hkeq : key x = key y := strLe_antisymm h1 h2
            rw [List.map_cons, List.nodup_cons] at hnodup
            exact absurd (hkeq ▸ List.mem_map_of_mem key hy_in_xs) hnodup.1
      subst hxy
      have hperm' : xs.Perm ys := hperm.cons_inv
      rw [List.map_cons, List.nodup_cons] at hnodup
      rw [ih ys hxs hys hperm' hnodup.2]

theorem sortOn_eq_of_perm (key : α → String) (l₁ l₂ : List α) (hperm : l₁.Perm l₂)
    (hnodup : (l₁.map key).Nodup) : sortOn key l₁ = sortOn key l₂ := by
  refine sorted_nodup_unique key _ _ (sortOn_pairwise key l₁) (sortOn_pairwise key l₂) ?_ ?_
  · exact (sortOn_perm key l₁).trans (hperm.trans (sortOn_perm key l₂).symm)
  · exact (((sortOn_perm key l₁).map key).nodup_iff).mpr hnodup

theorem manifestLines_nl (m : Manifest) (hm : ManifestOk m) :
    ∀ b ∈ manifestLines m, ('\n' : Char) ∉ b := by
  obtain ⟨hpkgs, hreqs, _⟩ := hm
  intro b hb
  unfold manifestLines at hb
  rcases List.mem_append.mp hb with hb | hb
  · rcases List.mem_append.mp hb with hb | hb
    · rcases List.mem_append.mp hb with hb | hb
      · simp only [List.mem_cons, List.not_mem_nil, or_false] at hb
        rcases hb with rfl | rfl | rfl | rfl
        · decide
        · decide
        · exact List.not_mem_nil _
        · decide
      · rw [List.mem_map] at hb
        obtain ⟨p, hp, rfl⟩ := hb
        exact not_nl_pkgLineBody p (hpkgs p ((sortOn_perm _ _).subset hp))
    · simp only [List.mem_cons, List.not_mem_nil, or_false] at hb
      rcases hb with rfl | rfl | rfl
      · decide
      · exact List.not_mem_nil _
      · decide
  · rw [List.mem_map] at hb
    obtain ⟨r, hr, rfl⟩ := hb
    exact not_nl_reqLineBody r (hreqs r ((sortOn_perm _ _).subset hr))

theorem parseManifest_toToml (m : Manifest) (hm : ManifestOk m) :
    parseManifest (Manifest.toToml m)
      = some ⟨sortOn Prod.fst m.requirements, sortOn ManifestPackage.name m.packages⟩ := by
  have hpkgs' : ∀ p ∈ sortOn ManifestPackage.name m.packages, PkgOk p :=
    fun p hp => hm.1 p ((sortOn_perm _ _).subset hp)
  have hreqs' : ∀ r ∈ sortOn Prod.fst m.requirements, ReqOk r :=
    fun r hr => hm.2.1 r ((sortOn_perm _ _).subset hr)
  show parseManifestChars (Manifest.toToml m).data = _
  have hdata : (Manifest.toToml m).data
      = ((manifestLines m).map (fun l => l ++ ['\n'])).flatten := rfl
  rw [hdata]
  unfold parseManifestChars
  have hsplit : splitOnChar '\n' (((manifestLines m).map (fun l => l ++ ['\n'])).flatten)
      = manifestLines m ++ [[]] := by
    have := splitOnChar_flatten '\n' (manifestLines m) (manifestLines_nl m hm) []
    simpa using this
  rw [hsplit]
  have hlines : manifestLines m ++ [[]]
      = headerLine1 :: headerLine2 :: [] :: packagesOpen
          :: ((sortOn ManifestPackage.name m.packages).map pkgLineBody
            ++ [']'] :: ([] :: requirementsLabel
              :: ((sortOn Prod.fst m.requirements).map reqLineBody ++ [[]]))) := by
    unfold manifestLines
    simp
  rw [hlines]
  simp only [parsePkgLines_round _ hpkgs' _, parseReqLines_round _ hreqs',
    and_self, if_true, reduceIte]

theorem toToml_perm_eq (m₁ m₂ : Manifest) (hperm : m₁.packages.Perm m₂.packages)
    (hreq : m₁.requirements = m₂.requirements)
    (hnodup : (m₁.packages.map ManifestPackage.name).Nodup) :
    Manifest.toToml m₁ = Manifest.toToml m₂ := by
  unfold Manifest.toToml manifestLines
  rw [sortOn_eq_of_perm ManifestPackage.name _ _ hperm hnodup, hreq]

set_option maxRecDepth 10000 in
/-- The serialization of `exampleManifest` is exactly the TOML document the
repository's `manifest_toml_format` test expects. -/
theorem exampleManifest_toToml :
    Manifest.toToml exampleManifest
      = "# This file was generated by Gleam\n# You typically do not need to edit this file\n\npackages = [\n  \x7b name = \"aaa\", version = \"0.4.0\", build_tools = [\"rebar3\", \"make\"], requirements = [\"zzz\", \"gleam_stdlib\"], otp_app = \"aaa_app\", source = \"hex\", outer_checksum = \"0316\" \x7d,\n  \x7b name = \"awsome_local1\", version = \"1.2.3\", build_tools = [\"gleam\"], requirements = [], source = \"local\", path = \"/home/louis/packages/path/to/package\" \x7d,\n  \x7b name = \"awsome_local2\", version = \"1.2.3\", build_tools = [\"gleam\"], requirements = [], source = \"git\", repo = \"https://github.com/gleam-lang/gleam.git\", commit = \"bd9fe02f72250e6a136967917bcb1bdccaffa3c8\" \x7d,\n  \x7b name = \"gleam_stdlib\", version = \"0.17.1\", build_tools = [\"gleam\"], requirements = [], source = \"hex\", outer_checksum = \"0116\" \x7d,\n  \x7b name = \"gleeunit\", version = \"0.4.0\", build_tools = [\"gleam\"], requirements = [\"gleam_stdlib\"], source = \"hex\", outer_checksum = \"032E\" \x7d,\n  \x7b name = \"zzz\", version = \"0.4.0\", build_tools = [\"mix\"], requirements = [], source = \"hex\", outer_checksum = \"0316\" \x7d,\n]\n\n[requirements]\naaa = \x7b version = \"> 0.0.0\" \x7d\nawsome_local1 = \x7b path = \"../path/to/package\" \x7d\nawsome_local2 = \x7b git = \"https://github.com/gleam-lang/gleam.git\" \x7d\ngleam_stdlib = \x7b version = \"~> 0.17\" \x7d\ngleeunit = \x7b version = \"~> 0.1\" \x7d\nzzz = \x7b version = \"> 0.0.0\" \x7d\n" := rfl

set_option maxRecDepth 10000 in
/-- C9 (counterexample): two manifests that differ only by a permutation of
the packages vector but produce different `to_toml` strings — the two
packages share the name `"a"` and the stable sort preserves their relative
order. -/
theorem claim_c9_counterexample :
    dupManifestA.packages.Perm dupManifestB.packages ∧
    dupManifestA.requirements = dupManifestB.requirements ∧
    Manifest.toToml dupManifestA ≠ Manifest.toToml dupManifestB :=
  ⟨List.Perm.swap _ _ _, rfl, by decide⟩

/-- C9 (amended): `Manifest.to_toml` lists packages sorted by package name
ascending and requirements sorted by requirement name ascending, and the
output string is identical for any two manifests that differ only by a
permutation of the packages vector, provided the package names are pairwise
distinct (with duplicate names the stable sort preserves the permuted order
of the duplicates and the strings may differ). -/
theorem claim_c9 (m₁ m₂ : Manifest) (hperm : m₁.packages.Perm m₂.packages)
    (hreq : m₁.requirements = m₂.requirements)
    (hnodup : (m₁.packages.map ManifestPackage.name).Nodup) :
    (∀ m : Manifest, List.Pairwise (fun a b => strLe a.name b.name = true)
        (sortOn ManifestPackage.name m.packages)) ∧
    (∀ m : Manifest, List.Pairwise (fun a b => strLe a.1 b.1 = true)
        (sortOn Prod.fst m.requirements)) ∧
    Manifest.toToml m₁ = Manifest.toToml m₂ :=
  ⟨fun m => sortOn_pairwise ManifestPackage.name m.packages,
   fun m => sortOn_pairwise Prod.fst m.requirements,
   toToml_perm_eq m₁ m₂ hperm hreq hnodup⟩

theorem claim_c9_witness :
    (∀ m : Manifest, List.Pairwise (fun a b => strLe a.name b.name = true)
        (sortOn ManifestPackage.name m.packages)) ∧
    (∀ m : Manifest, List.Pairwise (fun a b => strLe a.1 b.1 = true)
        (sortOn Prod.fst m.requirements)) ∧
    Manifest.toToml ⟨[], [⟨"b", ⟨1, 0, 0⟩, [], none, [], .hex ⟨[]⟩⟩,
                          ⟨"a", ⟨2, 0, 0⟩, [], none, [], .hex ⟨[]⟩⟩]⟩
      = Manifest.toToml ⟨[], [⟨"a", ⟨2, 0, 0⟩, [], none, [], .hex ⟨[]⟩⟩,
                              ⟨"b", ⟨1, 0, 0⟩, [], none, [], .hex ⟨[]⟩⟩]⟩ :=
  claim_c9 ⟨[], [⟨"b", ⟨1, 0, 0⟩, [], none, [], .hex ⟨[]⟩⟩,
                 ⟨"a", ⟨2, 0, 0⟩, [], none, [], .hex ⟨[]⟩⟩]⟩
    ⟨[], [⟨"a", ⟨2, 0, 0⟩, [], none, [], .hex ⟨[]⟩⟩,
          ⟨"b", ⟨1, 0, 0⟩, [], none, [], .hex ⟨[]⟩⟩]⟩
    (List.Perm.swap _ _ _) rfl (by decide)

set_option maxRecDepth 10000 in
/-- C10 (counterexample): deserializing the TOML text produced for a manifest
whose package name contains a `"` does not return the original manifest —
`to_toml` performs no escaping, so the emitted document does not parse back. -/
theorem claim_c10_counterexample :
    parseManifest (Manifest.toToml quotedManifest)
      ≠ some ⟨sortOn Prod.fst quotedManifest.requirements,
              sortOn ManifestPackage.name quotedManifest.packages⟩ := by
  decide

/-- C10 (amended): `Base16Checksum` serializes every byte vector as uppercase
base16 and deserializing that string returns the original bytes; and for
every manifest whose strings consist of characters that TOML basic strings
carry verbatim (no quotation mark, no backslash, no control character other
than tab), whose requirement names are non-empty TOML bare keys with
pairwise-distinct names, and whose checksum bytes are below 256,
deserializing the text produced by `Manifest::to_toml` yields the manifest
with its packages sorted by package name (and its requirements map in
name-sorted association-list order). -/
theorem claim_c10 :
    (∀ bs : List Nat, (∀ b ∈ bs, b < 256) → parseHexBytes (checksumChars bs) = some bs) ∧
    (∀ bs : List Nat, (∀ b ∈ bs, b < 256) → ∀ c ∈ checksumChars bs,
        c.isDigit = true ∨ (65 ≤ c.toNat ∧ c.toNat ≤ 70)) ∧
    (∀ m : Manifest, ManifestOk m →
        parseManifest (Manifest.toToml m)
          = some ⟨sortOn Prod.fst m.requirements, sortOn ManifestPackage.name m.packages⟩) :=
  ⟨fun bs h => parseHexBytes_checksumChars bs h,
   fun _ h _ hc => mem_checksumChars h hc,
   fun m hm => parseManifest_toToml m hm⟩

set_option maxRecDepth 10000 in
theorem claim_c10_witness :
    parseHexBytes (checksumChars [171, 205]) = some [171, 205] ∧
    (∀ c ∈ checksumChars [171, 205],
        c.isDigit = true ∨ (65 ≤ c.toNat ∧ c.toNat ≤ 70)) ∧
    parseManifest (Manifest.toToml smallManifest)
      = some ⟨sortOn Prod.fst smallManifest.requirements,
              sortOn ManifestPackage.name smallManifest.packages⟩ :=
  ⟨claim_c10.1 [171, 205] (by decide),
   claim_c10.2.1 [171, 205] (by decide),
   claim_c10.2.2 smallManifest (by decide)⟩
